import Mathlib

/-!
Verification of the redscript constant-pool core against its design notes.

The development shallowly embeds the Rust sources (`src/core/src/bundle.rs`,
`src/compiler/src/compiler.rs`, `src/compiler/src/codegen/builders.rs`) into
Lean. Machine integers are modelled as `Nat` with explicit `% 2 ^ 32` where the
code casts to `u32`; fallible or panicking code returns `Option` / `Except`;
interned strings are byte lists. Pieces of the repository that are not part of
the given sources (the primitive byte codecs of `encode.rs` / `decode.rs`, the
definition-body codec of `definition.rs`, and a few helpers of `type_repo.rs`)
are modelled from the design document and marked as such in their doc comments.
-/

namespace Redscript

/-- Interned strings (`Str` in the sources) modelled as lists of byte values. -/
abbrev Str0 := List Nat

/-- The raw `u32` value of a `PoolIndex` (`bundle.rs`); the phantom kind tag
has no runtime representation, so indices of all kinds share this type. -/
abbrev Idx := Nat

/-- `PoolIndex::UNDEFINED` has value 0 (`bundle.rs`). -/
def undefinedIdx : Idx := 0

/-- `PoolIndex::DEFAULT_SOURCE` has value 1 (`bundle.rs`). -/
def defaultSourceIdx : Idx := 1

/-- Association-list lookup used to model `hashbrown::HashMap` lookups. -/
def alook {β : Type} (m : List (Str0 × β)) (s : Str0) : Option β :=
  match m with
  | [] => none
  | (k, v) :: rest => if k = s then some v else alook rest s

/-- Insert-or-overwrite used to model `HashMap::insert`: the first entry with
the given key is replaced in place, otherwise the pair is appended. -/
def ainsert {β : Type} (m : List (Str0 × β)) (s : Str0) (v : β) : List (Str0 × β) :=
  match m with
  | [] => [(s, v)]
  | (k, w) :: rest => if k = s then (s, v) :: rest else (k, w) :: ainsert rest s v

/-- `PoolError` (`bundle.rs`). -/
inductive PoolError where
  | definitionNotFound (i : Idx)
  | stringNotFound (i : Idx)
  | unexpectedEntry
deriving DecidableEq, Repr

/-- One of the four string tables (`Strings<K>` in `bundle.rs`): an ordered
vector of strings plus a reverse interning map. -/
structure StrTable where
  strings : List Str0
  mappings : List (Str0 × Idx)
deriving DecidableEq, Repr

/-- The byte string `"None"`, the default value of the names table
(`CName::DEFAULT` in `bundle.rs`). -/
def noneStr : Str0 := [78, 111, 110, 101]

/-- `Strings::add` (`bundle.rs`): the per-table default string maps to the
undefined index, an interned string returns its existing index, and a new
string is appended and recorded in the reverse map. -/
def StrTable.add (dflt : Option Str0) (t : StrTable) (s : Str0) : Idx × StrTable :=
  if dflt = some s then (undefinedIdx, t)
  else
    let idx := t.strings.length
    match alook t.mappings s with
    | some i => (i, t)
    | none => (idx, ⟨t.strings ++ [s], t.mappings ++ [(s, idx)]⟩)

/-- `Strings::get` (`bundle.rs`): the undefined index yields the default
string when the table has one, otherwise the vector is indexed. -/
def StrTable.get (dflt : Option Str0) (t : StrTable) (i : Idx) : Except PoolError Str0 :=
  match dflt with
  | some d =>
    if i = undefinedIdx then .ok d
    else match t.strings.get? i with
      | some s => .ok s
      | none => .error (.stringNotFound i)
  | none =>
    match t.strings.get? i with
    | some s => .ok s
    | none => .error (.stringNotFound i)

/-- Pool type bodies (`Type` in `definition.rs`, as used by
`builders.rs::add_type`): primitive, class, or one of the four wrappers
holding the index of the inner pool type. -/
inductive PoolType where
  | prim
  | cls
  | ref (t : Idx)
  | weakRef (t : Idx)
  | array (t : Idx)
  | scriptRef (t : Idx)
deriving DecidableEq, Repr

/-- Function flag bits used by the compiler core (`FunctionFlags`); the spec
describes them as a bit-packed field round-tripped exactly. -/
structure FunctionFlags where
  isNative : Bool
  isStatic : Bool
  isFinal : Bool
  isCallback : Bool
  isQuest : Bool
  hasBody : Bool
deriving DecidableEq, Repr

/-- `FunctionFlags::with_is_callback`. -/
def FunctionFlags.withIsCallback (f : FunctionFlags) (b : Bool) : FunctionFlags :=
  { f with isCallback := b }

/-- `FunctionFlags::with_is_static`. -/
def FunctionFlags.withIsStatic (f : FunctionFlags) (b : Bool) : FunctionFlags :=
  { f with isStatic := b }

/-- `FunctionFlags::with_is_final`. -/
def FunctionFlags.withIsFinal (f : FunctionFlags) (b : Bool) : FunctionFlags :=
  { f with isFinal := b }

/-- Bytecode instructions, reduced to the distinction `remap_locals` inspects:
a `Local(i)` reference versus any other instruction (`bytecode.rs` is not part
of the given sources; modelled from the spec's emitter description). -/
inductive Instr where
  | loc (i : Idx)
  | op (n : Nat)
deriving DecidableEq, Repr

/-- `Class` definition body (`definition.rs`, fields as used by the given
sources: flags, base, method and field index lists). -/
structure ClassDef where
  visibility : Nat
  flags : Nat
  base : Idx
  methods : List Idx
  fields : List Idx
  overrides : List Idx
deriving DecidableEq, Repr

/-- `Enum` definition body (`definition.rs` as used by `builders.rs`). -/
structure EnumDef where
  flags : Nat
  size : Nat
  members : List Idx
  unk1 : Bool
deriving DecidableEq, Repr

/-- `Function` definition body (`definition.rs`, fields as constructed by
`FunctionBuilder::commit`). -/
structure FunctionDef where
  visibility : Nat
  flags : FunctionFlags
  source : Option (Idx × Nat)
  returnType : Option Idx
  unk1 : Bool
  baseMethod : Option Idx
  parameters : List Idx
  locals : List Idx
  operator : Option Nat
  cast : Nat
  code : List Instr
  unk2 : List Nat
deriving DecidableEq, Repr

/-- `Parameter` definition body. -/
structure ParameterDef where
  typ : Idx
  flags : Nat
deriving DecidableEq, Repr

/-- `Local` definition body. -/
structure LocalDef where
  typ : Idx
  flags : Nat
deriving DecidableEq, Repr

/-- `Field` definition body (fields as constructed by `FieldBuilder::commit`).
Hints, attributes and defaults are carried as opaque payloads. -/
structure FieldDef where
  visibility : Nat
  typ : Idx
  flags : Nat
  hint : Option Str0
  attributes : List Nat
  defaults : List Nat
deriving DecidableEq, Repr

/-- `SourceFile` definition body, modelled from the spec as a path payload. -/
structure SourceFileDef where
  path : Str0
deriving DecidableEq, Repr

/-- `AnyDefinition` (`definition.rs`): the tagged union of definition bodies
enumerated by `DefinitionType` in `bundle.rs`. -/
inductive AnyDefinition where
  | typ (t : PoolType)
  | cls (c : ClassDef)
  | enumValue (v : Int)
  | enm (e : EnumDef)
  | bitField (v : Nat)
  | func (f : FunctionDef)
  | param (p : ParameterDef)
  | localVar (l : LocalDef)
  | field (f : FieldDef)
  | sourceFile (s : SourceFileDef)
deriving DecidableEq, Repr

/-- `DefinitionType` tag of a body (`bundle.rs` declares the tags 0–9). -/
def AnyDefinition.tag : AnyDefinition → Nat
  | .typ _ => 0
  | .cls _ => 1
  | .enumValue _ => 2
  | .enm _ => 3
  | .bitField _ => 4
  | .func _ => 5
  | .param _ => 6
  | .localVar _ => 7
  | .field _ => 8
  | .sourceFile _ => 9

/-- `Definition` (`definition.rs`): name and parent indices, three unknown
bytes, and the body. -/
structure Definition where
  name : Idx
  parent : Idx
  unk1 : Nat
  unk2 : Nat
  unk3 : Nat
  value : AnyDefinition
deriving DecidableEq, Repr

/-- `Definition::DEFAULT`, the entry held unconditionally at pool slot 0. -/
def Definition.default : Definition :=
  ⟨0, 0, 0, 0, 0, .typ .prim⟩

/-- `ConstantPool` (`bundle.rs`): four string tables and the definitions. -/
structure ConstantPool where
  names : StrTable
  tweakdbIds : StrTable
  resources : StrTable
  strings : StrTable
  definitions : List Definition
deriving DecidableEq, Repr

/-- `ConstantPool::definition` (`bundle.rs`): total lookup returning
`DefinitionNotFound` for any out-of-range index, never panicking; the phantom
kind tag of the index plays no role. -/
def ConstantPool.definitionAt (pool : ConstantPool) (i : Idx) : Except PoolError Definition :=
  match pool.definitions.get? i with
  | some d => .ok d
  | none => .error (.definitionNotFound i)

/-- `ConstantPool::add_definition`: append and return the new index. -/
def ConstantPool.addDefinition (pool : ConstantPool) (d : Definition) : Idx × ConstantPool :=
  (pool.definitions.length, { pool with definitions := pool.definitions ++ [d] })

/-- `ConstantPool::reserve`: append the default definition. -/
def ConstantPool.reserve (pool : ConstantPool) : Idx × ConstantPool :=
  pool.addDefinition Definition.default

/-- `ConstantPool::put_definition`; the vector indexing panics when out of
range, modelled as `none`. -/
def ConstantPool.putDefinition (pool : ConstantPool) (i : Idx) (d : Definition) :
    Option ConstantPool :=
  if i < pool.definitions.length then
    some { pool with definitions := pool.definitions.set i d }
  else none

/-- `ConstantPool::rename`; panics out of range, modelled as `none`. -/
def ConstantPool.rename (pool : ConstantPool) (i : Idx) (nameIdx : Idx) : Option ConstantPool :=
  match pool.definitions.get? i with
  | some d => some { pool with definitions := pool.definitions.set i { d with name := nameIdx } }
  | none => none

/-- `ConstantPool::swap_definition` (`Vec::swap`); panics out of range. -/
def ConstantPool.swapDefinition (pool : ConstantPool) (a b : Idx) : Option ConstantPool :=
  match pool.definitions.get? a, pool.definitions.get? b with
  | some da, some db =>
    some { pool with definitions := (pool.definitions.set a db).set b da }
  | _, _ => none

/-- The `ops::Index` unwrap of a function body (`pool[idx]` for a
`PoolIndex<Function>`); panics when the slot is absent or not a function. -/
def ConstantPool.functionAt (pool : ConstantPool) (i : Idx) : Option FunctionDef :=
  match pool.definitions.get? i with
  | some ⟨_, _, _, _, _, .func f⟩ => some f
  | _ => none

/-- Replace the function body at a slot, keeping the definition's header
fields (models a mutation through `ops::IndexMut`). -/
def ConstantPool.setFunctionAt (pool : ConstantPool) (i : Idx) (f : FunctionDef) :
    Option ConstantPool :=
  match pool.definitions.get? i with
  | some d =>
    match d.value with
    | .func _ => some { pool with definitions := pool.definitions.set i { d with value := .func f } }
    | _ => none
  | none => none

/-- `ConstantPool::def_name_idx`: the name index of a definition. -/
def ConstantPool.defNameIdx (pool : ConstantPool) (i : Idx) : Except PoolError Idx :=
  (pool.definitionAt i).map Definition.name

/-- `ConstantPool::def_name`: resolve a definition's name in the names table
(which has the `"None"` default). -/
def ConstantPool.defName (pool : ConstantPool) (i : Idx) : Except PoolError Str0 :=
  (pool.definitionAt i).bind (fun d => StrTable.get (some noneStr) pool.names d.name)

/-- Set the parent of the definition at `i` (the loop body of
`complete_function`); panics out of range. -/
def ConstantPool.setParent (pool : ConstantPool) (i : Idx) (parent : Idx) :
    Option ConstantPool :=
  match pool.definitions.get? i with
  | some d => some { pool with definitions := pool.definitions.set i { d with parent := parent } }
  | none => none

/-- Fold `setParent` over a list of locals, as the `for` loop of
`complete_function` does. -/
def ConstantPool.setParents (pool : ConstantPool) (ls : List Idx) (parent : Idx) :
    Option ConstantPool :=
  match ls with
  | [] => some pool
  | l :: rest => do
    let pool' ← pool.setParent l parent
    pool'.setParents rest parent

/-- `ConstantPool::complete_function` (`bundle.rs`): reparent every local to
the function's index, then store the locals list and the code into the
function body. -/
def ConstantPool.completeFunction (pool : ConstantPool) (index : Idx) (locals : List Idx)
    (code : List Instr) : Option ConstantPool := do
  let pool ← pool.setParents locals index
  let f ← pool.functionAt index
  pool.setFunctionAt index { f with locals := locals, code := code }

end Redscript

namespace Redscript

/-- Indexing after `List.set`: the updated position reads the new value when it
is in range, every other position is unchanged. -/
theorem get?_set {α : Type} (l : List α) (n : Nat) (a : α) (m : Nat) :
    (l.set n a).get? m = if n = m ∧ n < l.length then some a else l.get? m := by
  rw [List.get?_set]
  by_cases h : n = m
  · subst h
    by_cases hl : n < l.length
    · rw [if_pos rfl, if_pos ⟨rfl, hl⟩, List.get?_eq_get hl]
      rfl
    · rw [if_pos rfl, if_neg (by tauto), List.get?_eq_none.mpr (by omega)]
      rfl
  · rw [if_neg h, if_neg (by tauto)]

/-- Looking up a freshly appended key in an association list that did not
contain it. -/
theorem alook_append_new {β : Type} (m : List (Str0 × β)) (s : Str0) (v : β)
    (h : alook m s = none) : alook (m ++ [(s, v)]) s = some v := by
  induction m with
  | nil => simp [alook]
  | cons kv rest ih =>
    obtain ⟨k, w⟩ := kv
    by_cases hk : k = s
    · simp [alook, hk] at h
    · simp only [alook, hk, if_false, List.cons_append] at h ⊢
      exact ih h

end Redscript

namespace Redscript

/-- A small concrete function body used by witnesses. -/
def sampleFunc : FunctionDef :=
  { visibility := 0, flags := ⟨false, false, false, false, false, true⟩, source := none,
    returnType := none, unk1 := false, baseMethod := none, parameters := [],
    locals := [], operator := none, cast := 0, code := [], unk2 := [] }

/-- A small concrete names table used by witnesses. -/
def sampleTable : StrTable :=
  ⟨[noneStr, [97]], [(noneStr, 0), ([97], 1)]⟩

/-- A small concrete pool used by witnesses: the default slot, a function at
index 1 and two locals at indices 2 and 3. -/
def samplePool : ConstantPool :=
  { names := sampleTable,
    tweakdbIds := ⟨[], []⟩, resources := ⟨[], []⟩, strings := ⟨[], []⟩,
    definitions := [Definition.default,
      ⟨1, 0, 0, 0, 0, .func sampleFunc⟩,
      ⟨0, 0, 0, 0, 0, .localVar ⟨0, 0⟩⟩,
      ⟨0, 0, 0, 0, 0, .localVar ⟨0, 0⟩⟩] }

/-- C10: `ConstantPool::definition` is total for every pool index of any
kind: when the index is below the number of definitions it returns the stored
definition, otherwise it returns a `DefinitionNotFound` error; the phantom
kind tag plays no role and no input panics. -/
theorem c10_definition_total (pool : ConstantPool) (i : Idx) :
    (∀ h : i < pool.definitions.length,
        pool.definitionAt i = .ok (pool.definitions.get ⟨i, h⟩)) ∧
    (pool.definitions.length ≤ i →
        pool.definitionAt i = .error (.definitionNotFound i)) := by
  constructor
  · intro h
    unfold ConstantPool.definitionAt
    rw [List.get?_eq_get h]
  · intro h
    unfold ConstantPool.definitionAt
    rw [List.get?_eq_none.mpr h]

/-- Witness for C10: both branches of the totality statement evaluated on a
concrete pool. -/
theorem c10_definition_total_witness :
    samplePool.definitionAt 9 = .error (.definitionNotFound 9) ∧
    samplePool.definitionAt 1 = .ok ⟨1, 0, 0, 0, 0, .func sampleFunc⟩ := by
  refine ⟨(c10_definition_total samplePool 9).2 (by decide), ?_⟩
  have h := (c10_definition_total samplePool 1).1 (by decide)
  exact h.trans rfl

/-- C8: `Strings::add` returns the interned index for a string that is
already mapped, leaving the table unchanged; appends a fresh string at the
next index and records it in the reverse map; and maps the per-table default
string (for the names table, `"None"`) to the undefined index 0 without
inserting anything. -/
theorem c8_strings_add (dflt : Option Str0) (t : StrTable) (s : Str0) :
    (dflt = some s → StrTable.add dflt t s = (undefinedIdx, t)) ∧
    (dflt ≠ some s → ∀ j, alook t.mappings s = some j → StrTable.add dflt t s = (j, t)) ∧
    (dflt ≠ some s → alook t.mappings s = none →
      (StrTable.add dflt t s).1 = t.strings.length ∧
      (StrTable.add dflt t s).2.strings = t.strings ++ [s] ∧
      alook (StrTable.add dflt t s).2.mappings s = some t.strings.length) := by
  refine ⟨?_, ?_, ?_⟩
  · intro h
    simp [StrTable.add, h]
  · intro h j hj
    simp [StrTable.add, h, hj]
  · intro h hn
    simp [StrTable.add, h, hn, alook_append_new _ _ _ hn]

/-- Witness for C8: all three branches of the add law evaluated on a concrete
names table. -/
theorem c8_strings_add_witness :
    StrTable.add (some noneStr) sampleTable noneStr = (undefinedIdx, sampleTable) ∧
    StrTable.add (some noneStr) sampleTable [97] = (1, sampleTable) ∧
    (StrTable.add (some noneStr) sampleTable [98]).1 = sampleTable.strings.length ∧
    (StrTable.add (some noneStr) sampleTable [98]).2.strings = sampleTable.strings ++ [[98]] ∧
    alook (StrTable.add (some noneStr) sampleTable [98]).2.mappings [98] =
      some sampleTable.strings.length := by
  have h1 := (c8_strings_add (some noneStr) sampleTable noneStr).1 rfl
  have h2 := (c8_strings_add (some noneStr) sampleTable [97]).2.1 (by decide) 1 (by decide)
  have h3 := (c8_strings_add (some noneStr) sampleTable [98]).2.2 (by decide) (by decide)
  exact ⟨h1, h2, h3.1, h3.2.1, h3.2.2⟩

/-- Effect of the reparenting loop of `complete_function`: every index in the
list has its parent replaced, everything else (including all string tables)
is untouched. -/
theorem setParents_spec (pool : ConstantPool) (L : List Idx) (parent : Idx)
    (hb : ∀ l ∈ L, l < pool.definitions.length) :
    ∃ pool', pool.setParents L parent = some pool' ∧
      pool'.names = pool.names ∧ pool'.tweakdbIds = pool.tweakdbIds ∧
      pool'.resources = pool.resources ∧ pool'.strings = pool.strings ∧
      pool'.definitions.length = pool.definitions.length ∧
      ∀ j, pool'.definitions.get? j =
        if j ∈ L then (pool.definitions.get? j).map (fun d => { d with parent := parent })
        else pool.definitions.get? j := by
  induction L generalizing pool with
  | nil =>
    exact ⟨pool, rfl, rfl, rfl, rfl, rfl, rfl, fun j => by simp⟩
  | cons l rest ih =>
    have hl : l < pool.definitions.length := hb l (by simp)
    obtain ⟨d, hd⟩ : ∃ d, pool.definitions.get? l = some d := ⟨_, List.get?_eq_get hl⟩
    have hstep : pool.setParent l parent =
        some { pool with definitions := pool.definitions.set l { d with parent := parent } } := by
      unfold ConstantPool.setParent
      rw [hd]
    have hb1 : ∀ x ∈ rest,
        x < (pool.definitions.set l { d with parent := parent }).length := by
      intro x hx
      have := hb x (by simp [hx])
      simpa using this
    obtain ⟨pool', hrun, hn, ht, hr, hs, hlen, hget⟩ :=
      ih { pool with definitions := pool.definitions.set l { d with parent := parent } } hb1
    have hlen' : pool'.definitions.length =
        (pool.definitions.set l { d with parent := parent }).length := hlen
    have hget' : ∀ j, pool'.definitions.get? j =
        if j ∈ rest then
          ((pool.definitions.set l { d with parent := parent }).get? j).map
            (fun d => { d with parent := parent })
        else (pool.definitions.set l { d with parent := parent }).get? j := hget
    have hget1 : ∀ j,
        (pool.definitions.set l { d with parent := parent }).get? j =
          if j = l then some { d with parent := parent } else pool.definitions.get? j := by
      intro j
      rw [get?_set]
      by_cases hj : j = l
      · rw [if_pos ⟨hj.symm, hl⟩, if_pos hj]
      · rw [if_neg (fun hc => hj hc.1.symm), if_neg hj]
    refine ⟨pool', ?_, hn, ht, hr, hs, ?_, ?_⟩
    · show Option.bind (pool.setParent l parent)
        (fun p => ConstantPool.setParents p rest parent) = some pool'
      rw [hstep, Option.some_bind]
      exact hrun
    · rw [hlen', List.length_set]
    · intro j
      have hj := hget' j
      have h1 := hget1 j
      by_cases hjl : j = l
      · rw [if_pos hjl] at h1
        by_cases hjr : j ∈ rest
        · rw [if_pos hjr, h1] at hj
          rw [hj, if_pos (by simp [hjl]), hjl, hd]
          rfl
        · rw [if_neg hjr, h1] at hj
          rw [hj, if_pos (by simp [hjl]), hjl, hd]
          rfl
      · rw [if_neg hjl] at h1
        by_cases hjr : j ∈ rest
        · rw [if_pos hjr, h1] at hj
          rw [hj, if_pos (by simp [hjr])]
        · rw [if_neg hjr, h1] at hj
          rw [hj, if_neg (by simp [hjl, hjr])]

/-- Reading a definition that is known to be present succeeds. -/
theorem definitionAt_ok {pool : ConstantPool} {i : Idx} {d : Definition}
    (h : pool.definitions.get? i = some d) : pool.definitionAt i = .ok d := by
  unfold ConstantPool.definitionAt
  rw [h]

/-- Reading a function body whose slot is known to hold a function. -/
theorem functionAt_some {pool : ConstantPool} {i : Idx} {nm pr u1 u2 u3 : Nat}
    {f : FunctionDef}
    (h : pool.definitions.get? i = some ⟨nm, pr, u1, u2, u3, .func f⟩) :
    pool.functionAt i = some f := by
  unfold ConstantPool.functionAt
  rw [h]

/-- Replacing a function body at a slot known to hold a function. -/
theorem setFunctionAt_some {pool : ConstantPool} {i : Idx} {nm pr u1 u2 u3 : Nat}
    {f0 f : FunctionDef}
    (h : pool.definitions.get? i = some ⟨nm, pr, u1, u2, u3, .func f0⟩) :
    pool.setFunctionAt i f =
      some { pool with definitions := pool.definitions.set i ⟨nm, pr, u1, u2, u3, .func f⟩ } := by
  unfold ConstantPool.setFunctionAt
  rw [h]

/-- C9: `ConstantPool::complete_function` sets the parent of every local in
the list to the function's index, installs exactly that locals list and the
code into the function at the index, and modifies no other definition. -/
theorem c9_complete_function (pool : ConstantPool) (i : Idx) (L : List Idx) (c : List Instr)
    (f0 : FunctionDef) (hf : pool.functionAt i = some f0)
    (hb : ∀ l ∈ L, l < pool.definitions.length) :
    ∃ pool', pool.completeFunction i L c = some pool' ∧
      pool'.definitions.length = pool.definitions.length ∧
      (∀ l ∈ L, (pool'.definitionAt l).map Definition.parent = .ok i) ∧
      pool'.functionAt i = some { f0 with locals := L, code := c } ∧
      (∀ j, j ∉ L → j ≠ i → pool'.definitions.get? j = pool.definitions.get? j) := by
  obtain ⟨dn, dp, du1, du2, du3, hdi⟩ :
      ∃ dn dp du1 du2 du3,
        pool.definitions.get? i = some ⟨dn, dp, du1, du2, du3, .func f0⟩ := by
    unfold ConstantPool.functionAt at hf
    rcases hg : pool.definitions.get? i with _ | d
    · rw [hg] at hf
      exact absurd hf (by simp)
    · rw [hg] at hf
      obtain ⟨nm, pr, u1, u2, u3, v⟩ := d
      cases v <;> simp_all
  have hi : i < pool.definitions.length := by
    by_contra hcon
    rw [List.get?_eq_none.mpr (Nat.le_of_not_lt hcon)] at hdi
    exact absurd hdi (by simp)
  obtain ⟨pool1, hrun, hn, ht, hr, hs, hlen, hget⟩ := setParents_spec pool L i hb
  have hd1 : pool1.definitions.get? i =
      some ⟨dn, if i ∈ L then i else dp, du1, du2, du3, .func f0⟩ := by
    have h := hget i
    by_cases hiL : i ∈ L
    · rw [if_pos hiL, hdi] at h
      rw [if_pos hiL]
      exact h.trans rfl
    · rw [if_neg hiL] at h
      rw [if_neg hiL]
      exact h.trans hdi
  have hfa1 : pool1.functionAt i = some f0 := functionAt_some hd1
  have hset := setFunctionAt_some (f := { f0 with locals := L, code := c }) hd1
  have hrun2 : pool.completeFunction i L c =
      some { pool1 with definitions := pool1.definitions.set i ⟨dn, if i ∈ L then i else dp, du1, du2, du3, .func { f0 with locals := L, code := c }⟩ } := by
    unfold ConstantPool.completeFunction
    rw [hrun]
    simp only [Option.bind_eq_bind, Option.some_bind]
    rw [hfa1]
    simp only [Option.some_bind]
    exact hset
  have hi1 : i < pool1.definitions.length := by
    rw [hlen]
    exact hi
  obtain ⟨dNew, hdNew⟩ : ∃ dNew : Definition,
      (⟨dn, if i ∈ L then i else dp, du1, du2, du3, .func { f0 with locals := L, code := c }⟩ : Definition) = dNew := ⟨_, rfl⟩
  rw [hdNew] at hrun2
  have hget2 : ∀ j, (pool1.definitions.set i dNew).get? j =
      if j = i then some dNew else pool1.definitions.get? j := by
    intro j
    rw [get?_set]
    by_cases hj : j = i
    · rw [if_pos ⟨hj.symm, hi1⟩, if_pos hj]
    · rw [if_neg (fun hc => hj hc.1.symm), if_neg hj]
  refine ⟨_, hrun2, ?_, ?_, ?_, ?_⟩
  · show (pool1.definitions.set i dNew).length = pool.definitions.length
    rw [List.length_set]
    omega
  · intro l hlL
    by_cases hli : l = i
    · have hgl : (pool1.definitions.set i dNew).get? l = some dNew := by
        rw [hget2 l, if_pos hli]
      rw [definitionAt_ok hgl, ← hdNew]
      show Except.ok (if i ∈ L then i else dp) = Except.ok i
      rw [if_pos (hli ▸ hlL)]
    · have hmap := hget l
      rw [if_pos hlL] at hmap
      rcases hg : pool.definitions.get? l with _ | dl
      · have hlt : l < pool.definitions.length := hb l hlL
        have hle := List.get?_eq_none.mp hg
        exact absurd hlt (Nat.not_lt.mpr hle)
      · have hgl : (pool1.definitions.set i dNew).get? l =
            some { dl with parent := i } := by
          rw [hget2 l, if_neg hli, hmap, hg]
          rfl
        rw [definitionAt_ok hgl]
        rfl
  · have hgi : (pool1.definitions.set i dNew).get? i =
        some ⟨dn, if i ∈ L then i else dp, du1, du2, du3, .func { f0 with locals := L, code := c }⟩ := by
      rw [hget2 i, if_pos rfl, ← hdNew]
    exact functionAt_some hgi
  · intro j hjL hji
    show (pool1.definitions.set i dNew).get? j = pool.definitions.get? j
    rw [hget2 j, if_neg hji]
    have h := hget j
    rw [if_neg hjL] at h
    exact h

theorem c9_complete_function_witness :
    ∃ pool', samplePool.completeFunction 1 [2, 3] [.op 0] = some pool' ∧
      pool'.definitions.length = samplePool.definitions.length ∧
      (∀ l ∈ [2, 3], (pool'.definitionAt l).map Definition.parent = .ok 1) ∧
      pool'.functionAt 1 = some { sampleFunc with locals := [2, 3], code := [.op 0] } ∧
      (∀ j, j ∉ [2, 3] → j ≠ 1 →
        pool'.definitions.get? j = samplePool.definitions.get? j) :=
  c9_complete_function samplePool 1 [2, 3] [.op 0] sampleFunc (by decide) (by decide)

end Redscript

namespace Redscript

/-- `Definition::type_`, the constructor used by `add_type` for pool-type
entries. -/
def Definition.type_ (name : Idx) (t : PoolType) : Definition :=
  ⟨name, 0, 0, 0, 0, .typ t⟩

/-- Primitive language types (`Prim` in `type_repo.rs`, which is not under the
given sources; modelled from the spec: a fixed enumeration of primitives each
serializing to its keyword). `unit` is the return type elided on commit. -/
inductive Prim where
  | unit
  | pvoid
  | pbool
  | int32
  | float
  | pstr
deriving DecidableEq, Repr

/-- Keyword serialization of a primitive (distinct byte strings). -/
def Prim.keyword : Prim → Str0
  | .unit => [85]
  | .pvoid => [86]
  | .pbool => [66]
  | .int32 => [73]
  | .float => [70]
  | .pstr => [83]

mutual

/-- Language-level types, modelled from the spec's data model:
`Type := Prim(P) | Data(id, [Type]) | Var(name) | Bottom | Top`, with the
interned `TypeId` represented by its byte string (interning makes ids
pointer-equal iff string-equal); the argument list is a mutually defined
list so that decidable equality can be derived. -/
inductive LType where
  | prim (p : Prim)
  | data (id : Str0) (args : LTypeList)
  | var (name : Str0)
  | bottom
  | top
deriving DecidableEq, Repr

/-- Argument lists of `LType.data`. -/
inductive LTypeList where
  | nil
  | cons (head : LType) (tail : LTypeList)
deriving DecidableEq, Repr

end

/-- The well-known builtin id `ref` (`predef::REF`). -/
def refId : Str0 := [114, 101, 102]

/-- The well-known builtin id `wref` (`predef::WREF`). -/
def wrefId : Str0 := [119, 114, 101, 102]

/-- The well-known builtin id `array` (`predef::ARRAY`). -/
def arrayId : Str0 := [97, 114, 114, 97, 121]

/-- The well-known builtin id `script_ref` (`predef::SCRIPT_REF`). -/
def scriptRefId : Str0 := [115, 99, 114, 105, 112, 116, 95, 114, 101, 102]

/-- The root class id `IScriptable`. -/
def iScriptableId : Str0 := [73, 83, 99, 114, 105, 112, 116, 97, 98, 108, 101]

/-- Repo-level data types (`DataType` in `type_repo.rs`, reduced to what
`serialize_type` and `alloc_type` inspect: builtin versus enum versus class
with its `is_struct` flag). -/
inductive DataType where
  | cls (isStruct : Bool)
  | enm
  | builtin
deriving DecidableEq, Repr

/-- The type repository restricted to `get_type` lookups. -/
abbrev TypeRepo := List (Str0 × DataType)

/-- `TypeRepo::get_type`. -/
def TypeRepo.getType (repo : TypeRepo) (id : Str0) : Option DataType :=
  alook repo id

/-- `serialize_type` (`builders.rs`): the canonical mangled name of a
language type; `none` models the panics on a missing repo id or on `ref` and
`wref` applied to no arguments. -/
def serializeType (repo : TypeRepo) (t : LType) (unwrapped : Bool) : Option Str0 :=
  match t with
  | .data id args =>
    match TypeRepo.getType repo id with
    | none => none
    | some dt =>
      if id = refId ∨ id = wrefId then
        match args with
        | .nil => none
        | .cons a _ => (serializeType repo a true).map (fun s => id ++ [58] ++ s)
      else
        match dt, args with
        | .builtin, .cons a _ => (serializeType repo a false).map (fun s => id ++ [58] ++ s)
        | .builtin, .nil => some id
        | .cls isStruct, _ =>
          if !isStruct && !unwrapped then some (refId ++ [58] ++ id) else some id
        | .enm, _ => some id
  | .prim p => some (Prim.keyword p)
  | .var _ => if unwrapped then some iScriptableId else some (refId ++ [58] ++ iScriptableId)
  | .bottom => if unwrapped then some iScriptableId else some (refId ++ [58] ++ iScriptableId)
  | .top => if unwrapped then some iScriptableId else some (refId ++ [58] ++ iScriptableId)

/-- `TypeCache` (`builders.rs`): the mangled-name-to-pool-index map. -/
structure TypeCache where
  types : List (Str0 × Idx)
deriving DecidableEq, Repr

/-- The reference-wrapping condition of `alloc_type`: `Var`, `Top`, `Bottom`,
and data of a non-struct class get replaced by `ref<T>`. -/
def needsRefWrap (repo : TypeRepo) : LType → Bool
  | .var _ => true
  | .bottom => true
  | .top => true
  | .data id _ =>
    match TypeRepo.getType repo id with
    | some (.cls isStruct) => !isStruct
    | _ => false
  | .prim _ => false

/-- The argument-allocation step shared by the variants of `add_type`
(`builders.rs`): the match on the language type that recursively allocates
the argument types, abstracted over the two recursive entry points
(`alloc_type_unwrapped` for `ref`/`wref`, `alloc_type` for `array` and
`script_ref`); `none` models the `unreachable!()` and `unwrap` panics. -/
def addTypeBodyWith
    (au aw : LType → TypeCache → ConstantPool → Option (Idx × TypeCache × ConstantPool))
    (repo : TypeRepo) (t : LType) (cache : TypeCache) (pool : ConstantPool) :
    Option (PoolType × TypeCache × ConstantPool) :=
  match t with
  | .data id args =>
    match TypeRepo.getType repo id, args with
    | some .builtin, .cons arg .nil =>
      if id = refId then
        (au arg cache pool).map (fun r => (PoolType.ref r.1, r.2.1, r.2.2))
      else if id = wrefId then
        (au arg cache pool).map (fun r => (PoolType.weakRef r.1, r.2.1, r.2.2))
      else if id = arrayId then
        (aw arg cache pool).map (fun r => (PoolType.array r.1, r.2.1, r.2.2))
      else if id = scriptRefId then
        (aw arg cache pool).map (fun r => (PoolType.scriptRef r.1, r.2.1, r.2.2))
      else none
    | some _, _ => some (PoolType.cls, cache, pool)
    | none, _ => none
  | .bottom => some (PoolType.cls, cache, pool)
  | .top => some (PoolType.cls, cache, pool)
  | .var _ => some (PoolType.cls, cache, pool)
  | .prim _ => some (PoolType.prim, cache, pool)

/-- Which of the three mutually recursive `TypeCache` procedures to run. -/
inductive AllocCall where
  | wrap (t : LType)
  | unwrapped (t : LType)
  | add (name : Str0) (t : LType)

/-- The three mutually recursive allocation procedures of `TypeCache`
(`alloc_type`, `alloc_type_unwrapped` and `add_type` in `builders.rs`) as a
single interpreter recursing structurally on a fuel counter so that it
reduces by computation; `none` models exhausted fuel or a panic in the
source. -/
def allocRun (repo : TypeRepo) : Nat → AllocCall → TypeCache → ConstantPool →
    Option (Idx × TypeCache × ConstantPool)
  | 0, _, _, _ => none
  | n + 1, .wrap t, cache, pool =>
    if needsRefWrap repo t then
      allocRun repo n (.unwrapped (.data refId (.cons t .nil))) cache pool
    else
      allocRun repo n (.unwrapped t) cache pool
  | n + 1, .unwrapped t, cache, pool =>
    match serializeType repo t true with
    | none => none
    | some name =>
      match alook cache.types name with
      | some idx => some (idx, cache, pool)
      | none => allocRun repo n (.add name t) cache pool
  | n + 1, .add name t, cache, pool =>
    (addTypeBodyWith
        (fun a c p => allocRun repo n (.unwrapped a) c p)
        (fun a c p => allocRun repo n (.wrap a) c p)
        repo t cache pool).bind (fun r =>
      let a := StrTable.add (some noneStr) r.2.2.names name
      let pool2 : ConstantPool := { r.2.2 with names := a.2 }
      let pr := pool2.addDefinition (Definition.type_ a.1 r.1)
      some (pr.1, ⟨ainsert r.2.1.types name pr.1⟩, pr.2))

/-- `TypeCache::alloc_type` (`builders.rs`), fuelled. -/
def allocType (repo : TypeRepo) (n : Nat) (t : LType) (cache : TypeCache)
    (pool : ConstantPool) : Option (Idx × TypeCache × ConstantPool) :=
  allocRun repo n (.wrap t) cache pool

/-- `TypeCache::alloc_type_unwrapped` (`builders.rs`), fuelled. -/
def allocTypeUnwrapped (repo : TypeRepo) (n : Nat) (t : LType) (cache : TypeCache)
    (pool : ConstantPool) : Option (Idx × TypeCache × ConstantPool) :=
  allocRun repo n (.unwrapped t) cache pool

/-- `TypeCache::add_type` (`builders.rs`), fuelled: build the pool-type body,
intern the mangled name into the names table, append the type definition and
record the cache mapping. -/
def addType (repo : TypeRepo) (n : Nat) (name : Str0) (t : LType) (cache : TypeCache)
    (pool : ConstantPool) : Option (Idx × TypeCache × ConstantPool) :=
  allocRun repo n (.add name t) cache pool

/-- Looking up the key just inserted by `ainsert` yields the new value. -/
theorem alook_ainsert_self {β : Type} (m : List (Str0 × β)) (s : Str0) (v : β) :
    alook (ainsert m s v) s = some v := by
  induction m with
  | nil => simp [ainsert, alook]
  | cons kv rest ih =>
    obtain ⟨k, w⟩ := kv
    by_cases hk : k = s
    · simp [ainsert, alook, hk]
    · simp only [ainsert, alook, if_neg hk]
      exact ih

/-- After a successful `add_type`, the cache maps the mangled name to the
returned index. -/
theorem addType_look {repo : TypeRepo} {n : Nat} {name : Str0} {t : LType}
    {cache : TypeCache} {pool : ConstantPool} {i : Idx} {cache' : TypeCache}
    {pool' : ConstantPool}
    (h : addType repo n name t cache pool = some (i, cache', pool')) :
    alook cache'.types name = some i := by
  unfold addType at h
  rcases n with _ | n
  · simp [allocRun] at h
  simp only [allocRun, Option.bind_eq_some] at h
  obtain ⟨⟨pt, c1, p1⟩, _, hrest⟩ := h
  simp only [Option.some.injEq, Prod.mk.injEq] at hrest
  obtain ⟨hi, hc, _⟩ := hrest
  rw [← hc, ← hi]
  exact alook_ainsert_self c1.types name _

/-- After a successful `alloc_type_unwrapped`, the cache maps the mangled
name of the type to the returned index. -/
theorem allocTypeUnwrapped_look {repo : TypeRepo} {n : Nat} {t : LType}
    {cache : TypeCache} {pool : ConstantPool} {i : Idx} {cache' : TypeCache}
    {pool' : ConstantPool}
    (h : allocTypeUnwrapped repo n t cache pool = some (i, cache', pool')) :
    ∃ name, serializeType repo t true = some name ∧ alook cache'.types name = some i := by
  unfold allocTypeUnwrapped at h
  rcases n with _ | n
  · simp [allocRun] at h
  rcases hs : serializeType repo t true with _ | name
  · simp only [allocRun, hs] at h
    exact Option.noConfusion h
  · rcases hl : alook cache.types name with _ | idx
    · simp only [allocRun, hs, hl] at h
      exact ⟨name, rfl, addType_look h⟩
    · simp only [allocRun, hs, hl, Option.some.injEq, Prod.mk.injEq] at h
      obtain ⟨hi, hc, _⟩ := h
      rw [← hc, ← hi]
      exact ⟨name, rfl, hl⟩

/-- C7: `TypeCache::alloc_type` is idempotent: when a call on a language type
returns an index and an updated cache and pool, calling it again on the same
type (equal types are equal `LType` values) in the resulting state returns
the very same index and leaves cache and pool unchanged, so no duplicate
pool-type entry is ever created for the same canonical mangled name. -/
theorem c7_alloc_type_idempotent (repo : TypeRepo) (n m : Nat) (t : LType)
    (cache : TypeCache) (pool : ConstantPool) (i : Idx) (cache' : TypeCache)
    (pool' : ConstantPool)
    (h : allocType repo n t cache pool = some (i, cache', pool'))
    (hm : 2 ≤ m) :
    allocType repo m t cache' pool' = some (i, cache', pool') := by
  unfold allocType at h ⊢
  rcases n with _ | n
  · simp [allocRun] at h
  rcases m with _ | m
  · omega
  rcases m with _ | m
  · omega
  cases hw : needsRefWrap repo t with
  | true =>
    rw [allocRun, hw, if_pos rfl] at h
    rw [allocRun, hw, if_pos rfl]
    obtain ⟨name, hser, hlook⟩ := allocTypeUnwrapped_look h
    simp only [allocRun, hser, hlook]
  | false =>
    rw [allocRun, hw, if_neg Bool.false_ne_true] at h
    rw [allocRun, hw, if_neg Bool.false_ne_true]
    obtain ⟨name, hser, hlook⟩ := allocTypeUnwrapped_look h
    simp only [allocRun, hser, hlook]

/-- A small repo for witnesses: the four builtins and a non-struct class
with id byte `65`. -/
def sampleRepo : TypeRepo :=
  [(refId, .builtin), (wrefId, .builtin), (arrayId, .builtin),
   (scriptRefId, .builtin), ([65], .cls false)]

/-- An empty pool holding only the default definition. -/
def emptyPool : ConstantPool :=
  ⟨⟨[], []⟩, ⟨[], []⟩, ⟨[], []⟩, ⟨[], []⟩, [Definition.default]⟩

/-- The class type used by the C7 witness. -/
def sampleLType : LType := .data [65] .nil

/-- The result of a first allocation of the witness type. -/
def c7result : Idx × TypeCache × ConstantPool :=
  (allocType sampleRepo 6 sampleLType ⟨[]⟩ emptyPool).getD (0, ⟨[]⟩, emptyPool)

/-- Witness for C7: a concrete first allocation succeeds, and re-running the
allocation in the resulting state returns the same index with cache and pool
untouched. -/
theorem c7_alloc_type_idempotent_witness :
    allocType sampleRepo 6 sampleLType ⟨[]⟩ emptyPool =
      some (c7result.1, c7result.2.1, c7result.2.2) ∧
    allocType sampleRepo 6 sampleLType c7result.2.1 c7result.2.2 =
      some (c7result.1, c7result.2.1, c7result.2.2) :=
  ⟨by decide,
    c7_alloc_type_idempotent sampleRepo 6 6 sampleLType ⟨[]⟩ emptyPool
      c7result.1 c7result.2.1 c7result.2.2 (by decide) (by decide)⟩

end Redscript

namespace Redscript

/-- `ParamBuilder` (`builders.rs`): pending parameter definition. -/
structure ParamBuilder where
  flags : Nat
  name : Str0
  typ : LType
deriving DecidableEq, Repr

/-- `ParamBuilder::renamed`. -/
def ParamBuilder.renamed (p : ParamBuilder) (name : Str0) : ParamBuilder :=
  { p with name := name }

/-- `ParamBuilder::commit` (`builders.rs`): intern the name, allocate the
type through the cache, append a parameter definition parented to the
function (the `Definition::param` constructor zeroes the unknown bytes). -/
def ParamBuilder.commit (fuel : Nat) (repo : TypeRepo) (p : ParamBuilder) (parent : Idx)
    (pool : ConstantPool) (cache : TypeCache) : Option (Idx × ConstantPool × TypeCache) :=
  let a := StrTable.add (some noneStr) pool.names p.name
  let pool1 : ConstantPool := { pool with names := a.2 }
  (allocType repo fuel p.typ cache pool1).bind (fun r =>
    let pr := r.2.2.addDefinition ⟨a.1, parent, 0, 0, 0, .param ⟨r.1, p.flags⟩⟩
    some (pr.1, pr.2, r.2.1))

/-- `LocalBuilder` (`builders.rs`): pending local definition. -/
structure LocalBuilder where
  flags : Nat
  name : Str0
  typ : LType
deriving DecidableEq, Repr

/-- `LocalBuilder::commit` (`builders.rs`): like a parameter but inserted
with an undefined parent, rewired later by `complete_function`. -/
def LocalBuilder.commit (fuel : Nat) (repo : TypeRepo) (l : LocalBuilder)
    (pool : ConstantPool) (cache : TypeCache) : Option (Idx × ConstantPool × TypeCache) :=
  let a := StrTable.add (some noneStr) pool.names l.name
  let pool1 : ConstantPool := { pool with names := a.2 }
  (allocType repo fuel l.typ cache pool1).bind (fun r =>
    let pr := r.2.2.addDefinition ⟨a.1, undefinedIdx, 0, 0, 0, .localVar ⟨r.1, l.flags⟩⟩
    some (pr.1, pr.2, r.2.1))

/-- `FunctionBuilder` (`builders.rs`): pending function definition. -/
structure FunctionBuilder where
  flags : FunctionFlags
  visibility : Nat
  name : Str0
  returnType : LType
  params : List ParamBuilder
  locals : List LocalBuilder
  body : List Instr
  base : Option Idx
  isWrapper : Bool
deriving DecidableEq, Repr

/-- `FunctionBuilder::with_wrapper_flag`. -/
def FunctionBuilder.withWrapperFlag (b : FunctionBuilder) : FunctionBuilder :=
  { b with isWrapper := true }

/-- The `rename_param` computation at the start of `FunctionBuilder::commit`
(`builders.rs`): for an override with the callback flag, the name of the
base method's first parameter; the outer `none` models the `unwrap` panics
on a dangling base index or an unresolvable parameter name. -/
def renameParamOf (pool : ConstantPool) (b : FunctionBuilder) : Option (Option Str0) :=
  match b.base with
  | some base =>
    if b.flags.isCallback then
      match pool.functionAt base with
      | none => none
      | some f =>
        match f.parameters.head? with
        | none => some none
        | some p =>
          match (pool.defName p).toOption with
          | none => none
          | some nm => some (some nm)
    else some none
  | none => some none

/-- Sequential `commit` of the parameter builders, keeping their order. -/
def commitParams (fuel : Nat) (repo : TypeRepo) : List ParamBuilder → Idx →
    ConstantPool → TypeCache → Option (List Idx × ConstantPool × TypeCache)
  | [], _, pool, cache => some ([], pool, cache)
  | p :: rest, parent, pool, cache =>
    (p.commit fuel repo parent pool cache).bind (fun r =>
      (commitParams fuel repo rest parent r.2.1 r.2.2).bind (fun rs =>
        some (r.1 :: rs.1, rs.2.1, rs.2.2)))

/-- Sequential `commit` of the local builders, keeping their order. -/
def commitLocals (fuel : Nat) (repo : TypeRepo) : List LocalBuilder →
    ConstantPool → TypeCache → Option (List Idx × ConstantPool × TypeCache)
  | [], pool, cache => some ([], pool, cache)
  | l :: rest, pool, cache =>
    (l.commit fuel repo pool cache).bind (fun r =>
      (commitLocals fuel repo rest r.2.1 r.2.2).bind (fun rs =>
        some (r.1 :: rs.1, rs.2.1, rs.2.2)))

/-- `FunctionBuilder::commit` (`builders.rs`): compute the callback rename,
reserve the function index first, intern the name, allocate the return type
unless it is `Unit`, commit parameters (renamed when the callback rename
applies) and locals, then write the function definition into the reserved
slot with `is_callback ← is_callback && !is_wrapper`. -/
def FunctionBuilder.commit (fuel : Nat) (repo : TypeRepo) (b : FunctionBuilder)
    (parent : Idx) (pool : ConstantPool) (cache : TypeCache) :
    Option (Idx × ConstantPool × TypeCache) :=
  (renameParamOf pool b).bind (fun renameParam =>
    let rv := pool.reserve
    let id := rv.1
    let a := StrTable.add (some noneStr) rv.2.names b.name
    let pool2 : ConstantPool := { rv.2 with names := a.2 }
    ((if b.returnType = .prim .unit then some ((none : Option Idx), cache, pool2)
      else
        (allocType repo fuel b.returnType cache pool2).map
          (fun r => (some r.1, r.2.1, r.2.2))).bind (fun rt =>
      let ps :=
        match renameParam with
        | some nm => b.params.map (fun p => p.renamed nm)
        | none => b.params
      (commitParams fuel repo ps id rt.2.2 rt.2.1).bind (fun pc =>
        (commitLocals fuel repo b.locals pc.2.1 pc.2.2).bind (fun lc =>
          let fdef : FunctionDef :=
            { visibility := b.visibility
              flags := b.flags.withIsCallback (b.flags.isCallback && !b.isWrapper)
              source := some (defaultSourceIdx, 0)
              returnType := rt.1
              unk1 := false
              baseMethod := b.base
              parameters := pc.1
              locals := lc.1
              operator := none
              cast := 0
              code := b.body
              unk2 := [] }
          (lc.2.1.putDefinition id ⟨a.1, parent, 0, 0, 0, .func fdef⟩).bind (fun pool6 =>
            some (id, pool6, lc.2.2)))))))

end Redscript

namespace Redscript

/-- Base-method pool for the C3 counterexample: slot 1 is a function whose
single parameter lives at slot 2 and is named byte `120`. -/
def c3pool : ConstantPool :=
  { names := ⟨[noneStr, [120]], [(noneStr, 0), ([120], 1)]⟩,
    tweakdbIds := ⟨[], []⟩, resources := ⟨[], []⟩, strings := ⟨[], []⟩,
    definitions := [Definition.default,
      ⟨0, 0, 0, 0, 0, .func { sampleFunc with parameters := [2] }⟩,
      ⟨1, 1, 0, 0, 0, .param ⟨0, 0⟩⟩] }

/-- Builder for the C3 counterexample: a callback override with two
parameters named bytes `97` and `98`. -/
def c3builder : FunctionBuilder :=
  { flags := ⟨false, false, false, true, false, true⟩,
    visibility := 0, name := [109],
    returnType := .prim .unit,
    params := [⟨0, [97], .prim .pbool⟩, ⟨0, [98], .prim .pbool⟩],
    locals := [], body := [], base := some 1, isWrapper := false }

/-- The concrete run of `FunctionBuilder::commit` for the C3 counterexample. -/
def c3run : Option (Idx × ConstantPool × TypeCache) :=
  FunctionBuilder.commit 9 sampleRepo c3builder 0 c3pool ⟨[]⟩

/-- C3 fails as stated: committing a callback override whose base has a
parameter renames every parameter, not only the first, to the base's first
parameter name. The builder's parameters are named `97` and `98`, yet both
committed parameters resolve to the base name `120`, so the second parameter
did not keep its own name. -/
theorem c3_commit_counterexample :
    c3builder.base = some 1 ∧ c3builder.flags.isCallback = true ∧
    c3builder.params.map ParamBuilder.name = [[97], [98]] ∧
    c3run.map (fun r => (r.2.1.functionAt r.1).map
        (fun f => f.parameters.map (fun p => (r.2.1.defName p).toOption))) =
      some (some [some [120], some [120]]) ∧
    ([120] : Str0) ≠ [98] := by decide

end Redscript

namespace Redscript

/-- The names table and the definitions only grow by appends from `p` to
`q`: how the pool evolves under the type cache and the builders. -/
def PoolGrows (p q : ConstantPool) : Prop :=
  (∃ ext, q.names.strings = p.names.strings ++ ext) ∧
  (∃ ext, q.definitions = p.definitions ++ ext)

/-- Growth is reflexive. -/
theorem PoolGrows.rfl (p : ConstantPool) : PoolGrows p p :=
  ⟨⟨[], by simp⟩, ⟨[], by simp⟩⟩

/-- Growth composes. -/
theorem PoolGrows.trans {p q r : ConstantPool} (h1 : PoolGrows p q) (h2 : PoolGrows q r) :
    PoolGrows p r := by
  obtain ⟨⟨e1, h1n⟩, ⟨d1, h1d⟩⟩ := h1
  obtain ⟨⟨e2, h2n⟩, ⟨d2, h2d⟩⟩ := h2
  exact ⟨⟨e1 ++ e2, by rw [h2n, h1n, List.append_assoc]⟩,
         ⟨d1 ++ d2, by rw [h2d, h1d, List.append_assoc]⟩⟩

/-- Well-formedness of the names table: nonempty, every reverse-map entry
points at its own string, and only the default string may map to index 0. -/
def NamesWF (t : StrTable) : Prop :=
  t.strings ≠ [] ∧ ∀ p ∈ t.mappings, t.strings.get? p.2 = some p.1 ∧ (p.2 = 0 → p.1 = noneStr)

/-- A hit in the reverse map is one of its entries. -/
theorem alook_mem {β : Type} {m : List (Str0 × β)} {s : Str0} {v : β}
    (h : alook m s = some v) : (s, v) ∈ m := by
  induction m with
  | nil => simp [alook] at h
  | cons kv rest ih =>
    obtain ⟨k, w⟩ := kv
    by_cases hk : k = s
    · simp only [alook, if_pos hk, Option.some.injEq] at h
      simp [hk, h]
    · simp only [alook, if_neg hk] at h
      exact List.mem_cons_of_mem _ (ih h)

/-- A present entry is below the length of the vector. -/
theorem get?_some_lt {α : Type} {l : List α} {n : Nat} {a : α}
    (h : l.get? n = some a) : n < l.length := by
  by_contra hc
  rw [List.get?_eq_none.mpr (Nat.le_of_not_lt hc)] at h
  exact Option.noConfusion h

/-- `Strings::add` preserves well-formedness of the names table. -/
theorem add_wf {t : StrTable} (hwf : NamesWF t) (s : Str0) :
    NamesWF (StrTable.add (some noneStr) t s).2 := by
  unfold StrTable.add
  by_cases hd : (some noneStr : Option Str0) = some s
  · rw [if_pos hd]
    exact hwf
  · rw [if_neg hd]
    rcases hl : alook t.mappings s with _ | i
    · show NamesWF ⟨t.strings ++ [s], t.mappings ++ [(s, t.strings.length)]⟩
      refine ⟨by simp, ?_⟩
      intro p hp
      rcases List.mem_append.mp hp with hp | hp
      · obtain ⟨h1, h2⟩ := hwf.2 p hp
        exact ⟨by rw [List.get?_append (get?_some_lt h1)]; exact h1, h2⟩
      · simp only [List.mem_singleton] at hp
        subst hp
        refine ⟨?_, ?_⟩
        · rw [List.get?_append_right (Nat.le_refl _)]
          simp
        · intro h0
          exact absurd (List.length_eq_zero.mp h0) hwf.1
    · exact hwf

/-- `Strings::add` only appends to the string vector. -/
theorem add_strings_ext (dflt : Option Str0) (t : StrTable) (s : Str0) :
    ∃ ext, (StrTable.add dflt t s).2.strings = t.strings ++ ext := by
  unfold StrTable.add
  by_cases hd : dflt = some s
  · rw [if_pos hd]
    exact ⟨[], by simp⟩
  · rw [if_neg hd]
    rcases hl : alook t.mappings s with _ | i
    · exact ⟨[s], by simp⟩
    · exact ⟨[], by simp⟩

/-- Reading the undefined index in a table with a default yields the
default. -/
theorem get_undef (t : StrTable) (d : Str0) :
    StrTable.get (some d) t undefinedIdx = .ok d := rfl

/-- A present string resolves, provided the index is not shadowed by the
table default. -/
theorem get_ok_of_get? {dflt : Option Str0} {t : StrTable} {i : Idx} {v : Str0}
    (hg : t.strings.get? i = some v)
    (hi : ∀ d, dflt = some d → i ≠ undefinedIdx) :
    StrTable.get dflt t i = .ok v := by
  cases dflt with
  | none =>
    show (match t.strings.get? i with
      | some s => Except.ok s
      | none => Except.error (PoolError.stringNotFound i)) = Except.ok v
    rw [hg]
  | some d =>
    show (if i = undefinedIdx then Except.ok d
      else match t.strings.get? i with
        | some s => Except.ok s
        | none => Except.error (PoolError.stringNotFound i)) = Except.ok v
    rw [if_neg (hi d rfl), hg]

/-- Inversion of a successful `Strings::get`: either the default index was
read, or the string vector holds the value at the index. -/
theorem get_ok_inv {dflt : Option Str0} {t : StrTable} {i : Idx} {v : Str0}
    (h : StrTable.get dflt t i = .ok v) :
    (∃ d, dflt = some d ∧ i = undefinedIdx ∧ v = d) ∨
      ((∀ d, dflt = some d → i ≠ undefinedIdx) ∧ t.strings.get? i = some v) := by
  cases dflt with
  | none =>
    refine Or.inr ⟨fun d hd => Option.noConfusion hd, ?_⟩
    have h' : (match t.strings.get? i with
      | some s => Except.ok s
      | none => Except.error (PoolError.stringNotFound i)) = Except.ok v := h
    rcases hg : t.strings.get? i with _ | w
    · rw [hg] at h'
      exact Except.noConfusion h'
    · rw [hg] at h'
      simp only [Except.ok.injEq] at h'
      rw [h']
  | some d =>
    by_cases hi : i = undefinedIdx
    · refine Or.inl ⟨d, rfl, hi, ?_⟩
      have h' : (if i = undefinedIdx then Except.ok d
        else match t.strings.get? i with
          | some s => Except.ok s
          | none => Except.error (PoolError.stringNotFound i)) = Except.ok v := h
      rw [if_pos hi] at h'
      simp only [Except.ok.injEq] at h'
      exact h'.symm
    · refine Or.inr ⟨fun e he => hi, ?_⟩
      have h' : (if i = undefinedIdx then Except.ok d
        else match t.strings.get? i with
          | some s => Except.ok s
          | none => Except.error (PoolError.stringNotFound i)) = Except.ok v := h
      rw [if_neg hi] at h'
      rcases hg : t.strings.get? i with _ | w
      · rw [hg] at h'
        exact Except.noConfusion h'
      · rw [hg] at h'
        simp only [Except.ok.injEq] at h'
        rw [h']

/-- Resolving the index returned by `Strings::add` in the updated table
yields the string that was added. -/
theorem add_get_self {t : StrTable} (hwf : NamesWF t) (s : Str0) :
    StrTable.get (some noneStr) (StrTable.add (some noneStr) t s).2
      (StrTable.add (some noneStr) t s).1 = .ok s := by
  unfold StrTable.add
  by_cases hd : (some noneStr : Option Str0) = some s
  · rw [if_pos hd]
    simp only [Option.some.injEq] at hd
    subst hd
    exact get_undef t noneStr
  · rw [if_neg hd]
    rcases hl : alook t.mappings s with _ | i
    · show StrTable.get (some noneStr)
        ⟨t.strings ++ [s], t.mappings ++ [(s, t.strings.length)]⟩ t.strings.length = .ok s
      have hne : t.strings.length ≠ undefinedIdx :=
        fun h => absurd (List.length_eq_zero.mp h) hwf.1
      refine get_ok_of_get? ?_ (fun d _ => hne)
      show (t.strings ++ [s]).get? t.strings.length = some s
      rw [List.get?_append_right (Nat.le_refl _)]
      simp
    · show StrTable.get (some noneStr) t i = .ok s
      obtain ⟨h1, h2⟩ := hwf.2 (s, i) (alook_mem hl)
      dsimp only at h1 h2
      have hi0 : i ≠ undefinedIdx := fun h0 => hd (by rw [h2 h0])
      exact get_ok_of_get? h1 (fun d _ => hi0)

/-- A successful `Strings::get` survives any extension of the string vector
(the reverse map is not consulted by `get`). -/
theorem get_ok_ext {dflt : Option Str0} {t : StrTable} {i : Idx} {v : Str0}
    (h : StrTable.get dflt t i = .ok v) (t' : StrTable) (ext : List Str0)
    (hext : t'.strings = t.strings ++ ext) :
    StrTable.get dflt t' i = .ok v := by
  rcases get_ok_inv h with ⟨d, hdf, hi, hv⟩ | ⟨hi, hg⟩
  · rw [hdf, hi, hv]
    exact get_undef t' d
  · refine get_ok_of_get? ?_ hi
    rw [hext, List.get?_append (get?_some_lt hg)]
    exact hg

/-- A resolved definition name survives pool growth: definitions are only
appended and the names vector is only extended. -/
theorem defName_ext {pool q : ConstantPool} {i : Idx} {v : Str0}
    (h : pool.defName i = .ok v) (hg : PoolGrows pool q) :
    q.defName i = .ok v := by
  unfold ConstantPool.defName ConstantPool.definitionAt at h ⊢
  obtain ⟨⟨en, hn⟩, ⟨ed, hd⟩⟩ := hg
  rcases hdef : pool.definitions.get? i with _ | d
  · rw [hdef] at h
    exact Except.noConfusion h
  · rw [hdef] at h
    rw [hd, List.get?_append (get?_some_lt hdef), hdef]
    have h' : StrTable.get (some noneStr) pool.names d.name = .ok v := h
    show StrTable.get (some noneStr) q.names d.name = .ok v
    exact get_ok_ext h' _ en hn

end Redscript

namespace Redscript

/-- Type allocation only grows the pool: the names vector and the
definitions are extended by appends, and names-table well-formedness is
preserved. -/
theorem allocRun_grows {repo : TypeRepo} :
    ∀ {n : Nat} {call : AllocCall} {cache : TypeCache} {pool : ConstantPool}
      {i : Idx} {cache' : TypeCache} {pool' : ConstantPool},
      allocRun repo n call cache pool = some (i, cache', pool') →
      PoolGrows pool pool' ∧ (NamesWF pool.names → NamesWF pool'.names) := by
  intro n
  induction n with
  | zero =>
    intro call cache pool i c' p' h
    simp [allocRun] at h
  | succ n ih =>
    intro call cache pool i c' p' h
    match call with
    | .wrap t =>
      rw [allocRun] at h
      split at h
      · exact ih h
      · exact ih h
    | .unwrapped t =>
      rw [allocRun] at h
      split at h
      · exact Option.noConfusion h
      · split at h
        · simp only [Option.some.injEq, Prod.mk.injEq] at h
          obtain ⟨h1, h2, h3⟩ := h
          rw [← h3]
          exact ⟨PoolGrows.rfl pool, fun hw => hw⟩
        · exact ih h
    | .add name t =>
      rw [allocRun, Option.bind_eq_some] at h
      obtain ⟨⟨pt, c1, p1⟩, hbody, hk⟩ := h
      have hb : PoolGrows pool p1 ∧ (NamesWF pool.names → NamesWF p1.names) := by
        unfold addTypeBodyWith at hbody
        repeat' split at hbody
        all_goals first
          | exact Option.noConfusion hbody
          | (simp only [Option.some.injEq, Prod.mk.injEq] at hbody
             obtain ⟨h1, h2, hp1⟩ := hbody
             rw [← hp1]
             exact ⟨PoolGrows.rfl pool, fun hw => hw⟩)
          | (rw [Option.map_eq_some'] at hbody
             obtain ⟨⟨i0, c0, p0⟩, hrec, heq⟩ := hbody
             simp only [Prod.mk.injEq] at heq
             obtain ⟨h1, h2, hp1⟩ := heq
             rw [← hp1]
             exact ih hrec)
      simp only [Option.some.injEq, Prod.mk.injEq] at hk
      obtain ⟨hi, hc, hp⟩ := hk
      constructor
      · refine PoolGrows.trans hb.1 ?_
        rw [← hp]
        constructor
        · obtain ⟨ext, hext⟩ := add_strings_ext (some noneStr) p1.names name
          exact ⟨ext, hext⟩
        · exact ⟨[⟨(StrTable.add (some noneStr) p1.names name).1, 0, 0, 0, 0,
            .typ pt⟩], rfl⟩
      · intro hw
        rw [← hp]
        exact add_wf (hb.2 hw) name

end Redscript

namespace Redscript

/-- Growth never shrinks the definitions vector. -/
theorem PoolGrows.defs_le {p q : ConstantPool} (h : PoolGrows p q) :
    p.definitions.length ≤ q.definitions.length := by
  obtain ⟨_, ⟨ed, hd⟩⟩ := h
  rw [hd]
  simp

/-- Appending on the right preserves being an extension. -/
theorem append_ext {α : Type} {l m : List α} (h : ∃ e, m = l ++ e) (x : List α) :
    ∃ e, m ++ x = l ++ e := by
  obtain ⟨e, he⟩ := h
  exact ⟨e ++ x, by rw [he, List.append_assoc]⟩

/-- Being an extension composes. -/
theorem ext_trans {α : Type} {l m n : List α} (h1 : ∃ e, m = l ++ e) (h2 : ∃ e, n = m ++ e) :
    ∃ e, n = l ++ e := by
  obtain ⟨e1, he1⟩ := h1
  obtain ⟨e2, he2⟩ := h2
  exact ⟨e1 ++ e2, by rw [he2, he1, List.append_assoc]⟩

/-- A resolved definition name survives overwriting a different slot. -/
theorem defName_set_ne {pool : ConstantPool} {i j : Idx} {v : Str0} {d : Definition}
    (h : pool.defName i = .ok v) (hne : i ≠ j) :
    ConstantPool.defName { pool with definitions := pool.definitions.set j d } i = .ok v := by
  unfold ConstantPool.defName ConstantPool.definitionAt at h ⊢
  rcases hdef : pool.definitions.get? i with _ | di
  · rw [hdef] at h
    exact Except.noConfusion h
  · rw [hdef] at h
    have hset : (pool.definitions.set j d).get? i = some di := by
      rw [get?_set, if_neg (fun hc => hne hc.1.symm)]
      exact hdef
    rw [hset]
    exact h

/-- Committing one parameter: the pool grows, the names table stays
well-formed, the new index is fresh, and the new parameter definition
resolves to the builder's name. -/
theorem paramCommit_spec {fuel : Nat} {repo : TypeRepo} {p : ParamBuilder} {parent : Idx}
    {pool : ConstantPool} {cache : TypeCache} {i : Idx} {pool' : ConstantPool}
    {cache' : TypeCache}
    (h : p.commit fuel repo parent pool cache = some (i, pool', cache'))
    (hwf : NamesWF pool.names) :
    PoolGrows pool pool' ∧ NamesWF pool'.names ∧
      pool.definitions.length ≤ i ∧ i < pool'.definitions.length ∧
      pool'.defName i = .ok p.name := by
  simp only [ParamBuilder.commit, Option.bind_eq_some] at h
  obtain ⟨⟨ti, c1, p2⟩, halloc, hk⟩ := h
  simp only [ConstantPool.addDefinition, Option.some.injEq, Prod.mk.injEq] at hk
  obtain ⟨hi, hpool, hcache⟩ := hk
  obtain ⟨hgrow1, hwf1⟩ := allocRun_grows halloc
  obtain ⟨⟨e1, hn1⟩, ⟨e2, hd1⟩⟩ := hgrow1
  obtain ⟨e0, hn0⟩ := add_strings_ext (some noneStr) pool.names p.name
  have hwf2 : NamesWF p2.names := hwf1 (add_wf hwf p.name)
  have hnself := add_get_self hwf p.name
  have hget2 : StrTable.get (some noneStr) p2.names
      (StrTable.add (some noneStr) pool.names p.name).1 = .ok p.name :=
    get_ok_ext hnself p2.names e1 hn1
  have h2l : p2.definitions.length = pool.definitions.length + e2.length := by
    have := congrArg List.length hd1
    simpa using this
  refine ⟨⟨?_, ?_⟩, ?_, ?_, ?_, ?_⟩
  · rw [← hpool]
    exact ext_trans ⟨e0, hn0⟩ ⟨e1, hn1⟩
  · rw [← hpool]
    exact append_ext (⟨e2, hd1⟩ : ∃ e, p2.definitions = pool.definitions ++ e) _
  · rw [← hpool]
    exact hwf2
  · rw [← hi]
    omega
  · rw [← hi, ← hpool]
    show p2.definitions.length < (p2.definitions ++ _).length
    simp
  · rw [← hi, ← hpool]
    have hDget : (({ p2 with definitions := p2.definitions ++
            [⟨(StrTable.add (some noneStr) pool.names p.name).1, parent, 0, 0, 0,
              .param ⟨ti, p.flags⟩⟩] } : ConstantPool)).definitions.get?
          p2.definitions.length =
        some ⟨(StrTable.add (some noneStr) pool.names p.name).1, parent, 0, 0, 0,
          .param ⟨ti, p.flags⟩⟩ := by
      show (p2.definitions ++ _).get? p2.definitions.length = _
      rw [List.get?_append_right (Nat.le_refl _)]
      simp
    have hstep := definitionAt_ok hDget
    unfold ConstantPool.defName
    rw [hstep]
    exact hget2

/-- Committing a list of parameters: growth, preserved well-formedness, one
fresh index per builder, and each committed parameter resolves to its
builder's name in the final pool. -/
theorem commitParams_spec {fuel : Nat} {repo : TypeRepo} :
    ∀ {ps : List ParamBuilder} {parent : Idx} {pool : ConstantPool} {cache : TypeCache}
      {is : List Idx} {pool' : ConstantPool} {cache' : TypeCache},
      commitParams fuel repo ps parent pool cache = some (is, pool', cache') →
      NamesWF pool.names →
      PoolGrows pool pool' ∧ NamesWF pool'.names ∧ is.length = ps.length ∧
        ∀ k (hk : k < is.length) (hk2 : k < ps.length),
          pool.definitions.length ≤ is.get ⟨k, hk⟩ ∧
          pool'.defName (is.get ⟨k, hk⟩) = .ok (ps.get ⟨k, hk2⟩).name := by
  intro ps
  induction ps with
  | nil =>
    intro parent pool cache is pool' cache' h hwf
    simp only [commitParams, Option.some.injEq, Prod.mk.injEq] at h
    obtain ⟨h1, h2, h3⟩ := h
    subst h1
    subst h2
    exact ⟨PoolGrows.rfl pool, hwf, by simp, fun k hk hk2 => absurd hk2 (by simp at hk)⟩
  | cons p rest ih =>
    intro parent pool cache is pool' cache' h hwf
    simp only [commitParams, Option.bind_eq_some] at h
    obtain ⟨⟨i0, pl1, ca1⟩, hp, h⟩ := h
    obtain ⟨⟨is0, pl2, ca2⟩, hps, h⟩ := h
    simp only [Option.some.injEq, Prod.mk.injEq] at h
    obtain ⟨his, hpool, hcache⟩ := h
    subst his
    subst hpool
    subst hcache
    obtain ⟨hg1, hwf1, hlo1, hhi1, hname1⟩ := paramCommit_spec hp hwf
    obtain ⟨hg2, hwf2, hlen2, hall2⟩ := ih hps hwf1
    refine ⟨PoolGrows.trans hg1 hg2, hwf2, by simp [hlen2], ?_⟩
    intro k hk hk2
    rcases k with _ | k
    · exact ⟨hlo1, defName_ext hname1 hg2⟩
    · have hk' : k < is0.length := by simpa using hk
      have hk2' : k < rest.length := by simpa using hk2
      obtain ⟨hlo, hname⟩ := hall2 k hk' hk2'
      refine ⟨?_, ?_⟩
      · show pool.definitions.length ≤ is0.get ⟨k, hk'⟩
        exact Nat.le_trans hg1.defs_le hlo
      · show ConstantPool.defName _ (is0.get ⟨k, hk'⟩) = Except.ok (rest.get ⟨k, hk2'⟩).name
        exact hname

/-- Committing one local only grows the pool and preserves names-table
well-formedness. -/
theorem localCommit_grows {fuel : Nat} {repo : TypeRepo} {l : LocalBuilder}
    {pool : ConstantPool} {cache : TypeCache} {i : Idx} {pool' : ConstantPool}
    {cache' : TypeCache}
    (h : l.commit fuel repo pool cache = some (i, pool', cache'))
    (hwf : NamesWF pool.names) :
    PoolGrows pool pool' ∧ NamesWF pool'.names := by
  simp only [LocalBuilder.commit, Option.bind_eq_some] at h
  obtain ⟨⟨ti, c1, p2⟩, halloc, hk⟩ := h
  simp only [ConstantPool.addDefinition, Option.some.injEq, Prod.mk.injEq] at hk
  obtain ⟨hi, hpool, hcache⟩ := hk
  obtain ⟨hgrow1, hwf1⟩ := allocRun_grows halloc
  obtain ⟨⟨e1, hn1⟩, ⟨e2, hd1⟩⟩ := hgrow1
  obtain ⟨e0, hn0⟩ := add_strings_ext (some noneStr) pool.names l.name
  refine ⟨⟨?_, ?_⟩, ?_⟩
  · rw [← hpool]
    exact ext_trans ⟨e0, hn0⟩ ⟨e1, hn1⟩
  · rw [← hpool]
    exact append_ext (⟨e2, hd1⟩ : ∃ e, p2.definitions = pool.definitions ++ e) _
  · rw [← hpool]
    exact hwf1 (add_wf hwf l.name)

/-- Committing a list of locals only grows the pool and preserves
well-formedness. -/
theorem commitLocals_grows {fuel : Nat} {repo : TypeRepo} :
    ∀ {ls : List LocalBuilder} {pool : ConstantPool} {cache : TypeCache}
      {is : List Idx} {pool' : ConstantPool} {cache' : TypeCache},
      commitLocals fuel repo ls pool cache = some (is, pool', cache') →
      NamesWF pool.names →
      PoolGrows pool pool' ∧ NamesWF pool'.names := by
  intro ls
  induction ls with
  | nil =>
    intro pool cache is pool' cache' h hwf
    simp only [commitLocals, Option.some.injEq, Prod.mk.injEq] at h
    obtain ⟨h1, h2, h3⟩ := h
    subst h2
    exact ⟨PoolGrows.rfl pool, hwf⟩
  | cons l rest ih =>
    intro pool cache is pool' cache' h hwf
    simp only [commitLocals, Option.bind_eq_some] at h
    obtain ⟨⟨i0, pl1, ca1⟩, hl, h⟩ := h
    obtain ⟨⟨is0, pl2, ca2⟩, hls, h⟩ := h
    simp only [Option.some.injEq, Prod.mk.injEq] at h
    obtain ⟨his, hpool, hcache⟩ := h
    subst hpool
    obtain ⟨hg1, hwf1⟩ := localCommit_grows hl hwf
    obtain ⟨hg2, hwf2⟩ := ih hls hwf1
    exact ⟨PoolGrows.trans hg1 hg2, hwf2⟩

end Redscript

namespace Redscript

/-- Tail of `FunctionBuilder::commit` once the return type is settled:
committing the (already renamed) parameter builders and the locals and
writing the function definition into the reserved slot yields a function
every one of whose parameters resolves to the builders' common name. -/
theorem commit_tail_names {fuel : Nat} {repo : TypeRepo} {ps : List ParamBuilder}
    {nm : Str0} {id0 : Idx} {pool3 : ConstantPool} {cache3 : TypeCache}
    {vis : Nat} {fl : FunctionFlags} {rt1 : Option Idx} {bso : Option Idx}
    {ls : List LocalBuilder} {body : List Instr} {a1 : Idx} {parent : Idx}
    {id : Idx} {pool' : ConstantPool} {cache' : TypeCache}
    (hnames : ∀ p ∈ ps, ParamBuilder.name p = nm)
    (hwf3 : NamesWF pool3.names)
    (hid : id0 < pool3.definitions.length)
    (hrun : (commitParams fuel repo ps id0 pool3 cache3).bind (fun pc =>
        (commitLocals fuel repo ls pc.2.1 pc.2.2).bind (fun lc =>
          (ConstantPool.putDefinition lc.2.1 id0
              ⟨a1, parent, 0, 0, 0, .func
                { visibility := vis, flags := fl, source := some (defaultSourceIdx, 0), returnType := rt1, unk1 := false, baseMethod := bso, parameters := pc.1, locals := lc.1, operator := none, cast := 0, code := body, unk2 := [] }⟩).bind (fun pool6 =>
            some (id0, pool6, lc.2.2)))) = some (id, pool', cache')) :
    ∃ f, pool'.functionAt id = some f ∧ f.parameters.length = ps.length ∧
      ∀ k (hk : k < f.parameters.length),
        pool'.defName (f.parameters.get ⟨k, hk⟩) = .ok nm := by
  rw [Option.bind_eq_some] at hrun
  obtain ⟨⟨is4, pl4, ca4⟩, hpc, hrun⟩ := hrun
  rw [Option.bind_eq_some] at hrun
  obtain ⟨⟨is5, pl5, ca5⟩, hlc, hrun⟩ := hrun
  rw [Option.bind_eq_some] at hrun
  obtain ⟨pool6, hput, hfin⟩ := hrun
  simp only [Option.some.injEq, Prod.mk.injEq] at hfin
  obtain ⟨hid0, hpool6, hcache6⟩ := hfin
  subst hid0
  subst hpool6
  subst hcache6
  obtain ⟨hg4, hwf4, hlen4, hall4⟩ := commitParams_spec hpc hwf3
  obtain ⟨hg5, hwf5⟩ := commitLocals_grows hlc hwf4
  unfold ConstantPool.putDefinition at hput
  split at hput
  case isTrue hlt =>
    simp only [Option.some.injEq] at hput
    subst hput
    refine ⟨{ visibility := vis, flags := fl, source := some (defaultSourceIdx, 0), returnType := rt1, unk1 := false, baseMethod := bso, parameters := is4, locals := is5, operator := none, cast := 0, code := body, unk2 := [] }, ?_, ?_, ?_⟩
    · unfold ConstantPool.functionAt
      rw [get?_set, if_pos ⟨rfl, hlt⟩]
    · exact hlen4
    · intro k hk
      have hk1 : k < is4.length := hk
      have hk2 : k < ps.length := hlen4 ▸ hk1
      obtain ⟨hlo, hname⟩ := hall4 k hk1 hk2
      rw [hnames _ (List.get_mem ps k hk2)] at hname
      have hname5 := defName_ext hname hg5
      have hne : is4.get ⟨k, hk1⟩ ≠ id0 := fun hcon =>
        Nat.lt_irrefl id0 (Nat.lt_of_lt_of_le hid (hcon ▸ hlo))
      exact defName_set_ne hname5 hne
  case isFalse => exact Option.noConfusion hput

end Redscript

namespace Redscript

/-- C3 (amended): committing a callback override through
`FunctionBuilder::commit` renames EVERY parameter to the base method's
first parameter's name: if the base method's first parameter resolves to
`nm`, every parameter of the committed function resolves to `nm` — not
only the first, and the other parameters do not keep their own names. -/
theorem c3_commit_callback_rename {fuel : Nat} {repo : TypeRepo} {b : FunctionBuilder}
    {parent : Idx} {pool : ConstantPool} {cache : TypeCache} {base : Idx}
    {bf : FunctionDef} {p0 : Idx} {nm : Str0} {id : Idx} {pool' : ConstantPool}
    {cache' : TypeCache}
    (hbase : b.base = some base) (hcb : b.flags.isCallback = true)
    (hbf : pool.functionAt base = some bf)
    (hp0 : bf.parameters.head? = some p0)
    (hnm : pool.defName p0 = .ok nm)
    (hwf : NamesWF pool.names)
    (hrun : FunctionBuilder.commit fuel repo b parent pool cache = some (id, pool', cache')) :
    ∃ f, pool'.functionAt id = some f ∧ f.parameters.length = b.params.length ∧
      ∀ k (hk : k < f.parameters.length),
        pool'.defName (f.parameters.get ⟨k, hk⟩) = .ok nm := by
  have hrp : renameParamOf pool b = some (some nm) := by
    unfold renameParamOf
    rw [hbase]
    simp only [hcb, hbf, hp0, hnm, Except.toOption, if_true]
  have hlenps : (b.params.map (fun p => p.renamed nm)).length = b.params.length := by
    simp
  have hnps : ∀ p ∈ b.params.map (fun p => p.renamed nm), ParamBuilder.name p = nm := by
    intro p hp
    obtain ⟨q, hq, rfl⟩ := List.mem_map.mp hp
    rfl
  unfold FunctionBuilder.commit at hrun
  rw [hrp] at hrun
  simp only [Option.some_bind, ConstantPool.reserve, ConstantPool.addDefinition] at hrun
  by_cases hret : b.returnType = LType.prim Prim.unit
  · rw [if_pos hret] at hrun
    rw [Option.some_bind] at hrun
    obtain ⟨f, h1, h2, h3⟩ := commit_tail_names hnps (add_wf hwf b.name)
      (show pool.definitions.length < (pool.definitions ++ [Definition.default]).length by simp)
      hrun
    exact ⟨f, h1, hlenps ▸ h2, h3⟩
  · rw [if_neg hret] at hrun
    rw [Option.bind_eq_some] at hrun
    obtain ⟨rt, hrt, hrun⟩ := hrun
    rw [Option.map_eq_some'] at hrt
    obtain ⟨r, hr, hrteq⟩ := hrt
    obtain ⟨ri, rc, rp⟩ := r
    subst hrteq
    obtain ⟨hg3, hwfp⟩ := allocRun_grows hr
    obtain ⟨_, ⟨ed, hd⟩⟩ := hg3
    have hidlt : pool.definitions.length < rp.definitions.length := by
      have h := congrArg List.length hd
      simp at h
      omega
    obtain ⟨f, h1, h2, h3⟩ := commit_tail_names hnps (hwfp (add_wf hwf b.name)) hidlt hrun
    exact ⟨f, h1, hlenps ▸ h2, h3⟩

end Redscript

namespace Redscript

/-- The concrete result triple of the C3 run, for the amended theorem's
witness. -/
def c3res : Idx × ConstantPool × TypeCache := c3run.getD (0, c3pool, ⟨[]⟩)

/-- The amended C3 theorem at the concrete counterexample run: every
hypothesis holds and all committed parameters resolve to the base method's
first parameter name `[120]`. -/
theorem c3_commit_callback_rename_witness :
    ∃ f, c3res.2.1.functionAt c3res.1 = some f ∧
      f.parameters.length = c3builder.params.length ∧
      ∀ k (hk : k < f.parameters.length),
        c3res.2.1.defName (f.parameters.get ⟨k, hk⟩) = .ok [120] :=
  @c3_commit_callback_rename 9 sampleRepo c3builder 0 c3pool ⟨[]⟩ 1
    { sampleFunc with parameters := [2] } 2 [120] c3res.1 c3res.2.1 c3res.2.2
    (by decide) (by decide) (by decide) (by decide) (by rfl)
    (by unfold NamesWF; decide) (by decide)

end Redscript

namespace Redscript

/-- Modelled from the spec: one method held by a class of the type
repository (`type_repo.rs` is not among the staged sources): its short
name, its parameter types, its `final` flag, and its index in the class. -/
structure MethodEntry where
  mname : Str0
  params : List LType
  isFinal : Bool
  index : Nat
deriving DecidableEq, Repr

/-- Modelled from the spec: a class of the type repository, reduced to the
methods it holds. -/
structure ClassEntry where
  methods : List MethodEntry
deriving DecidableEq, Repr

/-- The candidate list of `Compiler::get_base_method` (`compiler.rs`): over
the proper ancestors (`upper_iter(owner).skip(1)`), the methods with the
queried short name (`by_name`), filtered to the same parameter count and
not `final`, then filtered to pairwise same-shape parameters; `sameShape`
abstracts `InferType::is_same_shape` after instantiation, whose code lives
outside the staged sources. -/
def candidates (ancestors : List (Nat × ClassEntry)) (name : Str0)
    (qparams : List LType) (sameShape : LType → LType → Bool) :
    List (Nat × MethodEntry) :=
  ((ancestors.bind (fun tc =>
      (tc.2.methods.filter (fun m => m.mname == name)).map (fun m => (tc.1, m)))).filter
    (fun c => c.2.params.length == qparams.length && !c.2.isFinal)).filter
    (fun c => (c.2.params.zip qparams).all (fun pr => sameShape pr.1 pr.2))

/-- `Compiler::get_base_method` (`compiler.rs`): the inner `Option` is the
resolved base (`None` when no candidate matches); the outer `none` models
the `.at_most_one().ok().expect(..)` panic hit when two or more candidates
remain. -/
def getBaseMethod (sameShape : LType → LType → Bool)
    (ancestors : List (Nat × ClassEntry)) (name : Str0) (qparams : List LType) :
    Option (Option (Nat × Nat)) :=
  match candidates ancestors name qparams sameShape with
  | [] => some none
  | [c] => some (some (c.1, c.2.index))
  | _ :: _ :: _ => none

/-- Structural shape comparison instantiated as type equality, for the
concrete C4 runs. -/
def shapeEq (a b : LType) : Bool := a == b

/-- Two proper ancestors each holding a matching non-final method of the
queried name `[102]` and arity 1. -/
def c4anc : List (Nat × ClassEntry) :=
  [(1, ⟨[⟨[102], [LType.prim .int32], false, 0⟩]⟩),
   (2, ⟨[⟨[102], [LType.prim .int32], false, 3⟩]⟩)]

/-- C4 fails as stated: with two matching ancestor candidates the code does
not silently assign no base — `.at_most_one().ok().expect(..)` panics
(modelled `none`), which differs from the claim's silent `some none`. -/
theorem c4_base_method_counterexample :
    (candidates c4anc [102] [LType.prim .int32] shapeEq).length = 2 ∧
    getBaseMethod shapeEq c4anc [102] [LType.prim .int32] = none ∧
    getBaseMethod shapeEq c4anc [102] [LType.prim .int32] ≠ some none := by decide

end Redscript

namespace Redscript

/-- C4 (amended): base-method resolution searches only the proper
ancestors and keeps exactly the ancestor methods with the queried short
name, the same parameter count, not flagged `final`, and pairwise
same-shape parameters; with no candidate no base is assigned, with exactly
one candidate it becomes the base, and with more than one candidate the
compiler PANICS (`.at_most_one().ok().expect(..)`) instead of silently
assigning no base. -/
theorem c4_base_method_resolution (sameShape : LType → LType → Bool)
    (ancestors : List (Nat × ClassEntry)) (name : Str0) (qparams : List LType) :
    (∀ c ∈ candidates ancestors name qparams sameShape,
        (∃ cls, (c.1, cls) ∈ ancestors ∧ c.2 ∈ cls.methods) ∧ c.2.mname = name ∧
          c.2.params.length = qparams.length ∧ c.2.isFinal = false ∧
          (c.2.params.zip qparams).all (fun pr => sameShape pr.1 pr.2) = true) ∧
    (candidates ancestors name qparams sameShape = [] →
      getBaseMethod sameShape ancestors name qparams = some none) ∧
    (∀ c, candidates ancestors name qparams sameShape = [c] →
      getBaseMethod sameShape ancestors name qparams = some (some (c.1, c.2.index))) ∧
    (∀ c1 c2 rest, candidates ancestors name qparams sameShape = c1 :: c2 :: rest →
      getBaseMethod sameShape ancestors name qparams = none) := by
  refine ⟨?_, ?_, ?_, ?_⟩
  · intro c hc
    unfold candidates at hc
    rw [List.mem_filter] at hc
    obtain ⟨hc, hshape⟩ := hc
    rw [List.mem_filter] at hc
    obtain ⟨hc, harity⟩ := hc
    rw [List.mem_bind] at hc
    obtain ⟨tc, htc, hc⟩ := hc
    rw [List.mem_map] at hc
    obtain ⟨m, hm, hmc⟩ := hc
    rw [List.mem_filter] at hm
    obtain ⟨hm, hname⟩ := hm
    rw [Bool.and_eq_true, beq_iff_eq, Bool.not_eq_true'] at harity
    rw [beq_iff_eq] at hname
    subst hmc
    exact ⟨⟨tc.2, htc, hm⟩, hname, harity.1, harity.2, hshape⟩
  · intro h
    unfold getBaseMethod
    rw [h]
  · intro c h
    unfold getBaseMethod
    rw [h]
  · intro c1 c2 rest h
    unfold getBaseMethod
    rw [h]

/-- The amended C4 theorem at the concrete two-candidate input: resolution
panics (modelled `none`) because both ancestors carry a matching method. -/
theorem c4_base_method_resolution_witness :
    getBaseMethod shapeEq c4anc [102] [LType.prim .int32] = none :=
  (c4_base_method_resolution shapeEq c4anc [102] [LType.prim .int32]).2.2.2
    (1, ⟨[102], [LType.prim .int32], false, 0⟩)
    (2, ⟨[102], [LType.prim .int32], false, 3⟩) [] (by decide)

end Redscript

namespace Redscript

/-- Index-keyed association lookup (a `HashMap<PoolIndex, _>` read). -/
def ilook : List (Idx × Idx) → Idx → Option Idx
  | [], _ => none
  | p :: rest, k => if p.1 = k then some p.2 else ilook rest k

/-- The clone loop of `CompilationOutputs::remap_locals` (`compiler.rs`):
clone each local definition of the wrapped function, reparent the clone to
`proxy`, append it to the pool, and record old → new; `none` models the
`pool.definition(local_idx).unwrap()` panic on a dangling local. -/
def cloneLocals (proxy : Idx) : List Idx → ConstantPool →
    Option (List (Idx × Idx) × ConstantPool)
  | [], pool => some ([], pool)
  | li :: rest, pool =>
    match pool.definitions.get? li with
    | none => none
    | some d =>
      (cloneLocals proxy rest (pool.addDefinition { d with parent := proxy }).2).bind
        (fun rs => some ((li, (pool.addDefinition { d with parent := proxy }).1) :: rs.1, rs.2))

/-- The instruction rewrite of `remap_locals`: every `Instr::Local` is sent
through the old → new map; `none` models the
`mapped_locals.get(local).expect(..)` panic. -/
def remapCode : List Instr → List (Idx × Idx) → Option (List Instr)
  | [], _ => some []
  | .loc l :: rest, m =>
    (ilook m l).bind (fun nl => (remapCode rest m).map (fun rs => .loc nl :: rs))
  | .op n :: rest, m => (remapCode rest m).map (fun rs => .op n :: rs)

/-- `CompilationOutputs::remap_locals` (`compiler.rs`), parameterized by
`order`, the iteration order of `mapped_locals.values()`: `mapped_locals`
is a hashbrown `HashMap` whose iteration order depends on the per-process
random `ahash` seed, so `order` may be any permutation of the cloned
indices; the rewritten `locals` vector of the target function is exactly
`order`, while the instruction rewrite reads the map by key and does not
depend on it. -/
def remapLocals (proxy target : Idx) (order : List Idx) (pool : ConstantPool) :
    Option ConstantPool :=
  (pool.functionAt target).bind (fun f =>
    (cloneLocals proxy f.locals pool).bind (fun mc =>
      (remapCode f.code mc.1).bind (fun code2 =>
        mc.2.setFunctionAt target { f with locals := order, code := code2 })))

/-- Pool for the order-dependence run: slot 1 is a function with locals at
slots 2 and 3 and one local-referencing instruction. -/
def c2pool : ConstantPool :=
  { names := ⟨[noneStr], [(noneStr, 0)]⟩,
    tweakdbIds := ⟨[], []⟩, resources := ⟨[], []⟩, strings := ⟨[], []⟩,
    definitions := [Definition.default,
      ⟨0, 0, 0, 0, 0, .func { sampleFunc with locals := [2, 3], code := [Instr.loc 2] }⟩,
      ⟨0, 1, 0, 0, 0, .localVar ⟨0, 0⟩⟩,
      ⟨0, 1, 0, 0, 0, .localVar ⟨0, 0⟩⟩] }

/-- Hash-map iteration order changes the output: the clone loop maps the
locals 2 and 3 to the fresh slots 4 and 5, and the two admissible
iteration orders `[4, 5]` and `[5, 4]` of `mapped_locals.values()` commit
different pools — the emitted locals vector of the wrapped function
depends on the run-dependent hash order. -/
theorem remapLocals_order_dependent :
    List.Perm [4, 5] [5, 4] ∧
    (remapLocals 9 1 [4, 5] c2pool).isSome = true ∧
    (remapLocals 9 1 [5, 4] c2pool).isSome = true ∧
    remapLocals 9 1 [4, 5] c2pool ≠ remapLocals 9 1 [5, 4] c2pool := by
  refine ⟨List.Perm.swap' 5 4 (List.Perm.refl []), by decide, by decide, by decide⟩

end Redscript

namespace Redscript

/-- `pool[idx].flags = ..` on a function slot: overwrite the function
body's flags. -/
def setFunctionFlags (pool : ConstantPool) (i : Idx) (fl : FunctionFlags) :
    Option ConstantPool :=
  (pool.functionAt i).bind (fun f => pool.setFunctionAt i { f with flags := fl })

/-- The parameter alignment loop of `CompilationOutputs::commit`
(`compiler.rs`): for every zipped pair, rename the wrapper's parameter
definition to the wrapped parameter's current name index; `none` models the
`def_name_idx(from).unwrap()` and `rename` panics. -/
def renameParams : ConstantPool → List (Idx × Idx) → Option ConstantPool
  | pool, [] => some pool
  | pool, pr :: rest =>
    (pool.defNameIdx pr.1).toOption.bind (fun ni =>
      (pool.rename pr.2 ni).bind (fun p2 => renameParams p2 rest))

/-- The wrapper linkage body of `CompilationOutputs::commit`
(`compiler.rs`), for one wrapped method: read both definition names, move
the callback flag from the wrapped function to the last wrapper, align the
wrapper's parameter names with the wrapped ones position by position,
remap the wrapped function's locals next to the proxy (`order` is the
run-dependent hash iteration order), swap the two names and finally the
two definitions. -/
def wrapperLink (wrappedIdx lastIdx : Idx) (order : List Idx)
    (pool : ConstantPool) : Option ConstantPool :=
  (pool.defNameIdx wrappedIdx).toOption.bind (fun wrappedName =>
    (pool.defNameIdx lastIdx).toOption.bind (fun wrapperName =>
      (pool.functionAt wrappedIdx).bind (fun fw =>
        (if fw.flags.isCallback then
          (setFunctionFlags pool wrappedIdx (fw.flags.withIsCallback false)).bind
            (fun p1 =>
              setFunctionFlags p1 lastIdx
                ((fw.flags.withIsCallback false).withIsCallback true))
         else some pool).bind (fun p2 =>
          (p2.functionAt wrappedIdx).bind (fun fw2 =>
            (p2.functionAt lastIdx).bind (fun fl2 =>
              (renameParams p2 (fw2.parameters.zip fl2.parameters)).bind (fun p3 =>
                (remapLocals lastIdx wrappedIdx order p3).bind (fun p4 =>
                  (p4.rename lastIdx wrappedName).bind (fun p5 =>
                    (p5.rename wrappedIdx wrapperName).bind (fun p6 =>
                      p6.swapDefinition wrappedIdx lastIdx))))))))))

end Redscript

namespace Redscript

/-- `rename` characterized: the slot exists and only its name changes. -/
theorem rename_eq {pool p2 : ConstantPool} {i ni : Idx}
    (h : pool.rename i ni = some p2) :
    ∃ d, pool.definitions.get? i = some d ∧
      p2 = { pool with definitions := pool.definitions.set i { d with name := ni } } := by
  unfold ConstantPool.rename at h
  split at h
  next d hd =>
    simp only [Option.some.injEq] at h
    exact ⟨d, hd, h.symm⟩
  next => exact Option.noConfusion h

/-- `swap_definition` characterized: both slots exist and trade places. -/
theorem swap_eq {pool p2 : ConstantPool} {a b : Idx}
    (h : pool.swapDefinition a b = some p2) :
    ∃ da db2, pool.definitions.get? a = some da ∧ pool.definitions.get? b = some db2 ∧
      p2 = { pool with definitions := (pool.definitions.set a db2).set b da } := by
  unfold ConstantPool.swapDefinition at h
  split at h
  next da db2 hda hdb =>
    simp only [Option.some.injEq] at h
    exact ⟨da, db2, hda, hdb, h.symm⟩
  next => exact Option.noConfusion h

/-- The clone loop only appends definitions. -/
theorem cloneLocals_ext {proxy : Idx} :
    ∀ {ls : List Idx} {pool : ConstantPool} {m : List (Idx × Idx)} {p2 : ConstantPool},
      cloneLocals proxy ls pool = some (m, p2) →
      ∃ e, p2.definitions = pool.definitions ++ e := by
  intro ls
  induction ls with
  | nil =>
    intro pool m p2 h
    have h2 : (some ([], pool) : Option (List (Idx × Idx) × ConstantPool)) = some (m, p2) := h
    simp only [Option.some.injEq, Prod.mk.injEq] at h2
    exact ⟨[], by rw [← h2.2]; simp⟩
  | cons li rest ih =>
    intro pool m p2 h
    unfold cloneLocals at h
    split at h
    next => exact Option.noConfusion h
    next d hd =>
      simp only [Option.bind_eq_some] at h
      obtain ⟨⟨m1, p1⟩, hrs, h⟩ := h
      simp only [Option.some.injEq, Prod.mk.injEq] at h
      obtain ⟨h1, h2⟩ := h
      obtain ⟨e, he⟩ := ih hrs
      subst h2
      exact ⟨{ d with parent := proxy } :: e, by rw [he]; simp [ConstantPool.addDefinition]⟩

/-- `remap_locals` leaves every slot other than the target untouched. -/
theorem remapLocals_frame {proxy target j : Idx} {order : List Idx}
    {pool p2 : ConstantPool} {d : Definition}
    (h : remapLocals proxy target order pool = some p2)
    (hne : j ≠ target) (hd : pool.definitions.get? j = some d) :
    p2.definitions.get? j = some d := by
  unfold remapLocals at h
  simp only [Option.bind_eq_some] at h
  obtain ⟨f, hf, h⟩ := h
  obtain ⟨⟨m1, p1⟩, hcl, h⟩ := h
  obtain ⟨code2, hcode, hset⟩ := h
  obtain ⟨e, he⟩ := cloneLocals_ext hcl
  have hd1 : p1.definitions.get? j = some d := by
    rw [he, List.get?_append (get?_some_lt hd)]
    exact hd
  unfold ConstantPool.setFunctionAt at hset
  split at hset
  next dt hdt =>
    split at hset
    next ft hft =>
      simp only [Option.some.injEq] at hset
      subst hset
      show (p1.definitions.set target _).get? j = some d
      rw [get?_set, if_neg (fun hc => hne hc.1.symm)]
      exact hd1
    next => exact Option.noConfusion hset
  next => exact Option.noConfusion hset

/-- `remap_locals` on the target slot: the function body keeps its header
and flags, its locals become the (order-dependent) collected vector and
its code is rewritten. -/
theorem remapLocals_target {proxy target : Idx} {order : List Idx}
    {pool p2 : ConstantPool} {d : Definition} {f : FunctionDef}
    (h : remapLocals proxy target order pool = some p2)
    (hd : pool.definitions.get? target = some d) (hv : d.value = .func f) :
    ∃ code2, p2.definitions.get? target =
      some { d with value := .func { f with locals := order, code := code2 } } := by
  unfold remapLocals at h
  simp only [Option.bind_eq_some] at h
  obtain ⟨f0, hf0, h⟩ := h
  obtain ⟨⟨m1, p1⟩, hcl, h⟩ := h
  obtain ⟨code2, hcode, hset⟩ := h
  have hf0' : f0 = f := by
    unfold ConstantPool.functionAt at hf0
    rw [hd] at hf0
    rcases d with ⟨n, p, u1, u2, u3, v⟩
    cases hv
    simp only [Option.some.injEq] at hf0
    exact hf0.symm
  subst hf0'
  obtain ⟨e, he⟩ := cloneLocals_ext hcl
  have hd1 : p1.definitions.get? target = some d := by
    rw [he, List.get?_append (get?_some_lt hd)]
    exact hd
  unfold ConstantPool.setFunctionAt at hset
  split at hset
  next dt hdt =>
    rw [hd1] at hdt
    simp only [Option.some.injEq] at hdt
    subst hdt
    split at hset
    next ft hft =>
      simp only [Option.some.injEq] at hset
      subst hset
      refine ⟨code2, ?_⟩
      show (p1.definitions.set target _).get? target = _
      rw [get?_set, if_pos ⟨rfl, get?_some_lt hd1⟩]
    next hnf => exact (hnf _ hv).elim
  next hdt => rw [hd1] at hdt; exact Option.noConfusion hdt

end Redscript

namespace Redscript

/-- A successful `def_name_idx` read names an existing definition. -/
theorem defNameIdx_toOption_some {pool : ConstantPool} {i ni : Idx}
    (h : (pool.defNameIdx i).toOption = some ni) :
    ∃ d, pool.definitions.get? i = some d ∧ d.name = ni := by
  unfold ConstantPool.defNameIdx ConstantPool.definitionAt at h
  rcases hd : pool.definitions.get? i with _ | d
  · rw [hd] at h
    exact Option.noConfusion h
  · rw [hd] at h
    have h2 : (some d.name : Option Idx) = some ni := h
    simp only [Option.some.injEq] at h2
    exact ⟨d, rfl, h2⟩

/-- The parameter alignment loop leaves every slot that is not a rename
target unchanged. -/
theorem renameParams_frame :
    ∀ {prs : List (Idx × Idx)} {pool p2 : ConstantPool},
      renameParams pool prs = some p2 →
      ∀ {j : Idx}, (∀ pr ∈ prs, pr.2 ≠ j) →
      p2.definitions.get? j = pool.definitions.get? j := by
  intro prs
  induction prs with
  | nil =>
    intro pool p2 h j hj
    have h2 : (some pool : Option ConstantPool) = some p2 := h
    simp only [Option.some.injEq] at h2
    rw [← h2]
  | cons pr rest ih =>
    intro pool p2 h j hj
    unfold renameParams at h
    simp only [Option.bind_eq_some] at h
    obtain ⟨ni, hni, h⟩ := h
    obtain ⟨p1, hp1, h⟩ := h
    obtain ⟨d, hd, hpeq⟩ := rename_eq hp1
    subst hpeq
    have hj1 : ∀ q ∈ rest, q.2 ≠ j := fun q hq => hj q (List.mem_cons_of_mem pr hq)
    rw [ih h hj1]
    show (pool.definitions.set pr.2 _).get? j = _
    rw [get?_set, if_neg (fun hc => hj pr (List.mem_cons_self pr rest) hc.1)]

/-- After the alignment loop, every rename source keeps its definition and
every rename target carries the source's name. -/
theorem renameParams_names :
    ∀ {prs : List (Idx × Idx)} {pool p2 : ConstantPool},
      renameParams pool prs = some p2 →
      (∀ pr ∈ prs, ∀ q ∈ prs, pr.1 ≠ q.2) →
      (prs.map Prod.snd).Nodup →
      ∀ pr ∈ prs, ∃ (df dt : Definition), pool.definitions.get? pr.1 = some df ∧
        p2.definitions.get? pr.1 = some df ∧
        p2.definitions.get? pr.2 = some { dt with name := df.name } := by
  intro prs
  induction prs with
  | nil =>
    intro pool p2 h hdisj hnd pr hpr
    exact absurd hpr (List.not_mem_nil pr)
  | cons pr0 rest ih =>
    intro pool p2 h hdisj hnd pr hpr
    unfold renameParams at h
    simp only [Option.bind_eq_some] at h
    obtain ⟨ni, hni, h⟩ := h
    obtain ⟨p1, hp1, h⟩ := h
    obtain ⟨df0, hdf0, hnm0⟩ := defNameIdx_toOption_some hni
    obtain ⟨dt0, hdt0, hpeq⟩ := rename_eq hp1
    subst hpeq
    simp only [List.map_cons, List.nodup_cons, List.mem_map] at hnd
    obtain ⟨hnd0, hndr⟩ := hnd
    have hne00 : pr0.1 ≠ pr0.2 :=
      hdisj pr0 (List.mem_cons_self pr0 rest) pr0 (List.mem_cons_self pr0 rest)
    rcases List.mem_cons.mp hpr with rfl | hpr1
    · refine ⟨df0, dt0, hdf0, ?_, ?_⟩
      · rw [renameParams_frame h (fun q hq hc =>
          hdisj pr (List.mem_cons_self pr rest) q (List.mem_cons_of_mem pr hq) hc.symm)]
        show (pool.definitions.set pr.2 _).get? pr.1 = some df0
        rw [get?_set, if_neg (fun hc => hne00 hc.1.symm)]
        exact hdf0
      · rw [renameParams_frame h (fun q hq hc =>
          hnd0 ⟨q, hq, hc⟩)]
        show (pool.definitions.set pr.2 _).get? pr.2 = _
        rw [get?_set, if_pos ⟨rfl, get?_some_lt hdt0⟩, hnm0]
    · have hdisj1 : ∀ a ∈ rest, ∀ q ∈ rest, a.1 ≠ q.2 := fun a ha q hq =>
        hdisj a (List.mem_cons_of_mem pr0 ha) q (List.mem_cons_of_mem pr0 hq)
      obtain ⟨df, dt, hdf, hdf2, hdt2⟩ := ih h hdisj1 hndr pr hpr1
      have hf1ne : pr.1 ≠ pr0.2 :=
        hdisj pr (List.mem_cons_of_mem pr0 hpr1) pr0 (List.mem_cons_self pr0 rest)
      refine ⟨df, dt, ?_, hdf2, hdt2⟩
      have : ((pool.definitions.set pr0.2 { dt0 with name := ni })).get? pr.1 =
          pool.definitions.get? pr.1 := by
        rw [get?_set, if_neg (fun hc => hf1ne hc.1.symm)]
      rw [← this]
      exact hdf

end Redscript

namespace Redscript

/-- `functionAt` agrees with the stored definition's function body. -/
theorem functionAt_eq {pool : ConstantPool} {i : Idx} {d : Definition}
    {f f0 : FunctionDef}
    (hd : pool.definitions.get? i = some d) (hv : d.value = .func f)
    (h : pool.functionAt i = some f0) : f0 = f := by
  unfold ConstantPool.functionAt at h
  rw [hd] at h
  rcases d with ⟨n, p, u1, u2, u3, v⟩
  cases hv
  simp only [Option.some.injEq] at h
  exact h.symm

/-- Overwriting a function slot's flags characterized. -/
theorem setFunctionFlags_eq {pool p2 : ConstantPool} {i : Idx} {flg : FunctionFlags}
    (h : setFunctionFlags pool i flg = some p2) :
    ∃ (d : Definition) (f : FunctionDef), pool.definitions.get? i = some d ∧
      d.value = .func f ∧
      p2 = { pool with definitions :=
        pool.definitions.set i { d with value := .func { f with flags := flg } } } := by
  unfold setFunctionFlags ConstantPool.functionAt at h
  rw [Option.bind_eq_some] at h
  obtain ⟨f0, hf0, hset⟩ := h
  split at hf0
  next n p u1 u2 u3 f hd =>
    simp only [Option.some.injEq] at hf0
    subst hf0
    unfold ConstantPool.setFunctionAt at hset
    rw [hd] at hset
    simp only [Option.some.injEq] at hset
    exact ⟨_, _, hd, rfl, hset.symm⟩
  next => exact Option.noConfusion hf0

/-- Tail of `FunctionBuilder::commit` once the return type is settled: the
written function definition carries exactly the flags computed by the
builder. -/
theorem commit_tail_flags {fuel : Nat} {repo : TypeRepo} {ps : List ParamBuilder}
    {id0 : Idx} {pool3 : ConstantPool} {cache3 : TypeCache}
    {vis : Nat} {fl : FunctionFlags} {rt1 : Option Idx} {bso : Option Idx}
    {ls : List LocalBuilder} {body : List Instr} {a1 : Idx} {parent : Idx}
    {id : Idx} {pool' : ConstantPool} {cache' : TypeCache}
    (hrun : (commitParams fuel repo ps id0 pool3 cache3).bind (fun pc =>
        (commitLocals fuel repo ls pc.2.1 pc.2.2).bind (fun lc =>
          (ConstantPool.putDefinition lc.2.1 id0
              ⟨a1, parent, 0, 0, 0, .func
                { visibility := vis, flags := fl, source := some (defaultSourceIdx, 0), returnType := rt1, unk1 := false, baseMethod := bso, parameters := pc.1, locals := lc.1, operator := none, cast := 0, code := body, unk2 := [] }⟩).bind (fun pool6 =>
            some (id0, pool6, lc.2.2)))) = some (id, pool', cache')) :
    ∃ f, pool'.functionAt id = some f ∧ f.flags = fl := by
  rw [Option.bind_eq_some] at hrun
  obtain ⟨⟨is4, pl4, ca4⟩, hpc, hrun⟩ := hrun
  rw [Option.bind_eq_some] at hrun
  obtain ⟨⟨is5, pl5, ca5⟩, hlc, hrun⟩ := hrun
  rw [Option.bind_eq_some] at hrun
  obtain ⟨pool6, hput, hfin⟩ := hrun
  simp only [Option.some.injEq, Prod.mk.injEq] at hfin
  obtain ⟨hid0, hpool6, hcache6⟩ := hfin
  subst hid0
  subst hpool6
  unfold ConstantPool.putDefinition at hput
  split at hput
  case isTrue hlt =>
    simp only [Option.some.injEq] at hput
    subst hput
    refine ⟨{ visibility := vis, flags := fl, source := some (defaultSourceIdx, 0), returnType := rt1, unk1 := false, baseMethod := bso, parameters := is4, locals := is5, operator := none, cast := 0, code := body, unk2 := [] }, ?_, rfl⟩
    unfold ConstantPool.functionAt
    rw [get?_set, if_pos ⟨rfl, hlt⟩]
  case isFalse => exact Option.noConfusion hput

end Redscript


namespace Redscript

/-- The wrapper linkage body characterized: the wrapped slot receives the
wrapper's definition under the wrapped name with the callback flag exactly
when the wrapped function had it; the wrapper's slot receives the wrapped
definition under the wrapper's name, callback-free, with its locals
replaced by the remap order; and the parameter definitions carry equal
names position by position. -/
theorem wrapperLink_spec {wrappedIdx lastIdx : Idx} {order : List Idx}
    {pool pool' : ConstantPool} {dw dl : Definition} {fw fl : FunctionDef}
    (hne : wrappedIdx ≠ lastIdx)
    (hdw : pool.definitions.get? wrappedIdx = some dw) (hvw : dw.value = .func fw)
    (hdl : pool.definitions.get? lastIdx = some dl) (hvl : dl.value = .func fl)
    (hflcb : fl.flags.isCallback = false)
    (hlen : fw.parameters.length = fl.parameters.length)
    (hdisjp : ∀ i ∈ fw.parameters, ∀ j ∈ fl.parameters, i ≠ j)
    (hnd : fl.parameters.Nodup)
    (hpw : ∀ i ∈ fw.parameters, i ≠ wrappedIdx ∧ i ≠ lastIdx)
    (hpl : ∀ i ∈ fl.parameters, i ≠ wrappedIdx ∧ i ≠ lastIdx)
    (hrun : wrapperLink wrappedIdx lastIdx order pool = some pool') :
    (∃ (f1 : FunctionDef), pool'.definitions.get? wrappedIdx =
         some { dl with name := dw.name, value := .func f1 } ∧
       f1.parameters = fl.parameters ∧
       f1.flags.isCallback = fw.flags.isCallback) ∧
    (∃ (f2 : FunctionDef), pool'.definitions.get? lastIdx =
         some { dw with name := dl.name, value := .func f2 } ∧
       f2.parameters = fw.parameters ∧ f2.locals = order ∧
       f2.flags.isCallback = false) ∧
    (∀ k (hk1 : k < fw.parameters.length) (hk2 : k < fl.parameters.length),
       ∃ (df dt : Definition),
         pool.definitions.get? (fw.parameters.get ⟨k, hk1⟩) = some df ∧
         pool'.definitions.get? (fw.parameters.get ⟨k, hk1⟩) = some df ∧
         pool'.definitions.get? (fl.parameters.get ⟨k, hk2⟩) =
           some { dt with name := df.name }) := by
  obtain ⟨nw, qw, aw1, aw2, aw3, vw⟩ := dw
  obtain ⟨nl, ql, bl1, bl2, bl3, vl⟩ := dl
  cases hvw
  cases hvl
  unfold wrapperLink at hrun
  simp only [Option.bind_eq_some] at hrun
  obtain ⟨wrappedName, hwn, hrun⟩ := hrun
  obtain ⟨wrapperName, hpn, hrun⟩ := hrun
  obtain ⟨fw0, hfw0, hrun⟩ := hrun
  obtain ⟨p2, hp2, hrun⟩ := hrun
  obtain ⟨fw2, hfw2, hrun⟩ := hrun
  obtain ⟨fl2, hfl2, hrun⟩ := hrun
  obtain ⟨p3, hp3, hrun⟩ := hrun
  obtain ⟨p4, hp4, hrun⟩ := hrun
  obtain ⟨p5, hp5, hrun⟩ := hrun
  obtain ⟨p6, hp6, hswap⟩ := hrun
  obtain ⟨dn1, hdn1, hdnm1⟩ := defNameIdx_toOption_some hwn
  rw [hdw] at hdn1
  simp only [Option.some.injEq] at hdn1
  subst hdn1
  subst hdnm1
  obtain ⟨dn2, hdn2, hdnm2⟩ := defNameIdx_toOption_some hpn
  rw [hdl] at hdn2
  simp only [Option.some.injEq] at hdn2
  subst hdn2
  subst hdnm2
  have hfw0e := (functionAt_eq hdw rfl hfw0).symm
  subst hfw0e
  have hfacts : ∃ (fwU flU : FunctionDef),
      p2.definitions.get? wrappedIdx = some ⟨nw, qw, aw1, aw2, aw3, .func fwU⟩ ∧
      p2.definitions.get? lastIdx = some ⟨nl, ql, bl1, bl2, bl3, .func flU⟩ ∧
      (∀ j, j ≠ wrappedIdx → j ≠ lastIdx →
        p2.definitions.get? j = pool.definitions.get? j) ∧
      fwU.parameters = fw.parameters ∧ flU.parameters = fl.parameters ∧
      fwU.flags.isCallback = false ∧ flU.flags.isCallback = fw.flags.isCallback := by
    by_cases hcb : fw.flags.isCallback = true
    · rw [if_pos hcb] at hp2
      rw [Option.bind_eq_some] at hp2
      obtain ⟨p1, hp1, hp2⟩ := hp2
      obtain ⟨d1, f1, hd1, hv1, hpeq1⟩ := setFunctionFlags_eq hp1
      rw [hdw] at hd1
      simp only [Option.some.injEq] at hd1
      subst hd1
      simp only [AnyDefinition.func.injEq] at hv1
      subst hv1
      obtain ⟨d2, f2, hd2, hv2, hpeq2⟩ := setFunctionFlags_eq hp2
      rw [hpeq1] at hd2
      have hd2' : (pool.definitions.set wrappedIdx
          ⟨nw, qw, aw1, aw2, aw3,
            .func { fw with flags := fw.flags.withIsCallback false }⟩).get? lastIdx =
          some d2 := hd2
      rw [get?_set, if_neg (fun hc => hne hc.1), hdl] at hd2'
      simp only [Option.some.injEq] at hd2'
      subst hd2'
      simp only [AnyDefinition.func.injEq] at hv2
      subst hv2
      refine ⟨{ fw with flags := fw.flags.withIsCallback false },
        { fl with flags := (fw.flags.withIsCallback false).withIsCallback true },
        ?_, ?_, ?_, rfl, rfl, rfl, ?_⟩
      · rw [hpeq2, hpeq1]
        show ((pool.definitions.set wrappedIdx _).set lastIdx _).get? wrappedIdx = _
        rw [get?_set, if_neg (fun hc => hne hc.1.symm), get?_set,
          if_pos ⟨rfl, get?_some_lt hdw⟩]
      · rw [hpeq2, hpeq1]
        show ((pool.definitions.set wrappedIdx _).set lastIdx _).get? lastIdx = _
        rw [get?_set,
          if_pos ⟨rfl, by rw [List.length_set]; exact get?_some_lt hdl⟩]
      · intro j hjw hjl
        rw [hpeq2, hpeq1]
        show ((pool.definitions.set wrappedIdx _).set lastIdx _).get? j = _
        rw [get?_set, if_neg (fun hc => hjl hc.1.symm), get?_set,
          if_neg (fun hc => hjw hc.1.symm)]
      · show ((fw.flags.withIsCallback false).withIsCallback true).isCallback =
          fw.flags.isCallback
        simp [FunctionFlags.withIsCallback, hcb]
    · rw [if_neg hcb] at hp2
      simp only [Option.some.injEq] at hp2
      subst hp2
      simp only [Bool.not_eq_true] at hcb
      exact ⟨fw, fl, hdw, hdl, fun j hjw hjl => rfl, rfl, rfl, hcb,
        hflcb.trans hcb.symm⟩
  obtain ⟨fwU, flU, hq1, hq2, hframe2, hpU1, hpU2, hcbU1, hcbU2⟩ := hfacts
  have hfw2e := (functionAt_eq hq1 rfl hfw2).symm
  subst hfw2e
  have hfl2e := (functionAt_eq hq2 rfl hfl2).symm
  subst hfl2e
  rw [hpU1, hpU2] at hp3
  have hmapsnd : (fw.parameters.zip fl.parameters).map Prod.snd = fl.parameters :=
    List.map_snd_zip _ _ (Nat.le_of_eq hlen.symm)
  have hndzip : ((fw.parameters.zip fl.parameters).map Prod.snd).Nodup := by
    rw [hmapsnd]
    exact hnd
  have hzipw : ∀ q ∈ fw.parameters.zip fl.parameters, q.2 ≠ wrappedIdx :=
    fun q hq => (hpl q.2 (List.of_mem_zip hq).2).1
  have hzipl : ∀ q ∈ fw.parameters.zip fl.parameters, q.2 ≠ lastIdx :=
    fun q hq => (hpl q.2 (List.of_mem_zip hq).2).2
  have hdisjzip : ∀ pr ∈ fw.parameters.zip fl.parameters,
      ∀ q ∈ fw.parameters.zip fl.parameters, pr.1 ≠ q.2 :=
    fun pr hpr q hq =>
      hdisjp pr.1 (List.of_mem_zip hpr).1 q.2 (List.of_mem_zip hq).2
  have hnames3 := renameParams_names hp3 hdisjzip hndzip
  have hq1w : p3.definitions.get? wrappedIdx =
      some ⟨nw, qw, aw1, aw2, aw3, .func fwU⟩ := by
    rw [renameParams_frame hp3 hzipw]
    exact hq1
  have hq2w : p3.definitions.get? lastIdx =
      some ⟨nl, ql, bl1, bl2, bl3, .func flU⟩ := by
    rw [renameParams_frame hp3 hzipl]
    exact hq2
  obtain ⟨code2, hq1x⟩ := remapLocals_target hp4 hq1w rfl
  have hq2x : p4.definitions.get? lastIdx =
      some ⟨nl, ql, bl1, bl2, bl3, .func flU⟩ :=
    remapLocals_frame hp4 (Ne.symm hne) hq2w
  obtain ⟨d5, hd5, hpeq5⟩ := rename_eq hp5
  rw [hq2x] at hd5
  simp only [Option.some.injEq] at hd5
  subst hd5
  have hp5w : p5.definitions.get? wrappedIdx =
      some ⟨nw, qw, aw1, aw2, aw3,
        .func { fwU with locals := order, code := code2 }⟩ := by
    rw [hpeq5]
    show (p4.definitions.set lastIdx _).get? wrappedIdx = _
    rw [get?_set, if_neg (fun hc => hne hc.1.symm)]
    exact hq1x
  have hp5l : p5.definitions.get? lastIdx =
      some ⟨nw, ql, bl1, bl2, bl3, .func flU⟩ := by
    rw [hpeq5]
    show (p4.definitions.set lastIdx _).get? lastIdx = _
    rw [get?_set, if_pos ⟨rfl, get?_some_lt hq2x⟩]
  have hp5f : ∀ j, j ≠ lastIdx → p5.definitions.get? j = p4.definitions.get? j := by
    intro j hjl
    rw [hpeq5]
    show (p4.definitions.set lastIdx _).get? j = _
    rw [get?_set, if_neg (fun hc => hjl hc.1.symm)]
  obtain ⟨d6, hd6, hpeq6⟩ := rename_eq hp6
  rw [hp5w] at hd6
  simp only [Option.some.injEq] at hd6
  subst hd6
  have hp6w : p6.definitions.get? wrappedIdx =
      some ⟨nl, qw, aw1, aw2, aw3,
        .func { fwU with locals := order, code := code2 }⟩ := by
    rw [hpeq6]
    show (p5.definitions.set wrappedIdx _).get? wrappedIdx = _
    rw [get?_set, if_pos ⟨rfl, get?_some_lt hp5w⟩]
  have hp6l : p6.definitions.get? lastIdx =
      some ⟨nw, ql, bl1, bl2, bl3, .func flU⟩ := by
    rw [hpeq6]
    show (p5.definitions.set wrappedIdx _).get? lastIdx = _
    rw [get?_set, if_neg (fun hc => hne hc.1)]
    exact hp5l
  have hp6f : ∀ j, j ≠ wrappedIdx → j ≠ lastIdx →
      p6.definitions.get? j = p4.definitions.get? j := by
    intro j hjw hjl
    rw [hpeq6]
    show (p5.definitions.set wrappedIdx _).get? j = _
    rw [get?_set, if_neg (fun hc => hjw hc.1.symm)]
    exact hp5f j hjl
  obtain ⟨da, db2, hda, hdb, hpeq7⟩ := swap_eq hswap
  rw [hp6w] at hda
  simp only [Option.some.injEq] at hda
  subst hda
  rw [hp6l] at hdb
  simp only [Option.some.injEq] at hdb
  subst hdb
  have hp7w : pool'.definitions.get? wrappedIdx =
      some ⟨nw, ql, bl1, bl2, bl3, .func flU⟩ := by
    rw [hpeq7]
    show ((p6.definitions.set wrappedIdx _).set lastIdx _).get? wrappedIdx = _
    rw [get?_set, if_neg (fun hc => hne hc.1.symm), get?_set,
      if_pos ⟨rfl, get?_some_lt hp6w⟩]
  have hp7l : pool'.definitions.get? lastIdx =
      some ⟨nl, qw, aw1, aw2, aw3,
        .func { fwU with locals := order, code := code2 }⟩ := by
    rw [hpeq7]
    show ((p6.definitions.set wrappedIdx _).set lastIdx _).get? lastIdx = _
    rw [get?_set,
      if_pos ⟨rfl, by rw [List.length_set]; exact get?_some_lt hp6l⟩]
  have hp7f : ∀ j, j ≠ wrappedIdx → j ≠ lastIdx →
      pool'.definitions.get? j = p6.definitions.get? j := by
    intro j hjw hjl
    rw [hpeq7]
    show ((p6.definitions.set wrappedIdx _).set lastIdx _).get? j = _
    rw [get?_set, if_neg (fun hc => hjl hc.1.symm), get?_set,
      if_neg (fun hc => hjw hc.1.symm)]
  refine ⟨⟨flU, hp7w, hpU2, hcbU2⟩,
    ⟨{ fwU with locals := order, code := code2 }, hp7l, ?_, rfl, hcbU1⟩, ?_⟩
  · show fwU.parameters = fw.parameters
    exact hpU1
  · intro k hk1 hk2
    have hkz : k < (fw.parameters.zip fl.parameters).length := by
      rw [List.length_zip]
      omega
    have hmem : (fw.parameters.get ⟨k, hk1⟩, fl.parameters.get ⟨k, hk2⟩) ∈
        fw.parameters.zip fl.parameters := by
      have hget : (fw.parameters.zip fl.parameters).get ⟨k, hkz⟩ =
          (fw.parameters.get ⟨k, hk1⟩, fl.parameters.get ⟨k, hk2⟩) := by
        simp [List.getElem_zip]
      rw [← hget]
      exact List.get_mem _ k hkz
    obtain ⟨df, dt, hdf2, hdf3, hdt3⟩ := hnames3 _ hmem
    have hjw1 : fw.parameters.get ⟨k, hk1⟩ ≠ wrappedIdx :=
      (hpw _ (List.get_mem _ k hk1)).1
    have hjl1 : fw.parameters.get ⟨k, hk1⟩ ≠ lastIdx :=
      (hpw _ (List.get_mem _ k hk1)).2
    have hjw2 : fl.parameters.get ⟨k, hk2⟩ ≠ wrappedIdx :=
      (hpl _ (List.get_mem _ k hk2)).1
    have hjl2 : fl.parameters.get ⟨k, hk2⟩ ≠ lastIdx :=
      (hpl _ (List.get_mem _ k hk2)).2
    refine ⟨df, dt, ?_, ?_, ?_⟩
    · rw [← hframe2 _ hjw1 hjl1]
      exact hdf2
    · rw [hp7f _ hjw1 hjl1, hp6f _ hjw1 hjl1]
      exact remapLocals_frame hp4 hjw1 hdf3
    · rw [hp7f _ hjw2 hjl2, hp6f _ hjw2 hjl2]
      exact remapLocals_frame hp4 hjw2 hdt3

end Redscript

namespace Redscript

/-- C5: wrapper emission and linkage. (a) A function committed through
`FunctionBuilder::commit` with the wrapper flag never carries the callback
flag, so the intermediate wrappers W1..Wn-1 stay callback-free. (b) The
linkage step for the last wrapper Wn moves Wn's definition into the
wrapped slot under the wrapped name — so the slot externally known as M
carries the last wrapper's definition — with the callback flag exactly
when M had it; the wrapped definition moves to Wn's old slot under Wn's
name, callback cleared; and the wrapped and wrapper parameter definitions
carry identical names position by position. -/
theorem c5_wrapper_linkage :
    (∀ (fuel : Nat) (repo : TypeRepo) (b : FunctionBuilder) (parent : Idx)
       (pool : ConstantPool) (cache : TypeCache) (id : Idx) (pool2 : ConstantPool)
       (cache2 : TypeCache), b.isWrapper = true →
       FunctionBuilder.commit fuel repo b parent pool cache = some (id, pool2, cache2) →
       ∃ f, pool2.functionAt id = some f ∧ f.flags.isCallback = false) ∧
    (∀ (wrappedIdx lastIdx : Idx) (order : List Idx) (pool pool2 : ConstantPool)
       (dw dl : Definition) (fw fl : FunctionDef),
       wrappedIdx ≠ lastIdx →
       pool.definitions.get? wrappedIdx = some dw → dw.value = .func fw →
       pool.definitions.get? lastIdx = some dl → dl.value = .func fl →
       fl.flags.isCallback = false →
       fw.parameters.length = fl.parameters.length →
       (∀ i ∈ fw.parameters, ∀ j ∈ fl.parameters, i ≠ j) →
       fl.parameters.Nodup →
       (∀ i ∈ fw.parameters, i ≠ wrappedIdx ∧ i ≠ lastIdx) →
       (∀ i ∈ fl.parameters, i ≠ wrappedIdx ∧ i ≠ lastIdx) →
       wrapperLink wrappedIdx lastIdx order pool = some pool2 →
       (∃ (f1 : FunctionDef), pool2.definitions.get? wrappedIdx =
            some { dl with name := dw.name, value := .func f1 } ∧
          f1.parameters = fl.parameters ∧
          f1.flags.isCallback = fw.flags.isCallback) ∧
       (∃ (f2 : FunctionDef), pool2.definitions.get? lastIdx =
            some { dw with name := dl.name, value := .func f2 } ∧
          f2.parameters = fw.parameters ∧ f2.locals = order ∧
          f2.flags.isCallback = false) ∧
       (∀ k (hk1 : k < fw.parameters.length) (hk2 : k < fl.parameters.length),
          ∃ (df dt : Definition),
            pool.definitions.get? (fw.parameters.get ⟨k, hk1⟩) = some df ∧
            pool2.definitions.get? (fw.parameters.get ⟨k, hk1⟩) = some df ∧
            pool2.definitions.get? (fl.parameters.get ⟨k, hk2⟩) =
              some { dt with name := df.name })) := by
  constructor
  · intro fuel repo b parent pool cache id pool2 cache2 hw hrun
    unfold FunctionBuilder.commit at hrun
    rw [Option.bind_eq_some] at hrun
    obtain ⟨rp, hrp, hrun⟩ := hrun
    simp only [ConstantPool.reserve, ConstantPool.addDefinition] at hrun
    by_cases hret : b.returnType = LType.prim Prim.unit
    · rw [if_pos hret] at hrun
      rw [Option.some_bind] at hrun
      obtain ⟨f, hf, hfl⟩ := commit_tail_flags hrun
      exact ⟨f, hf, by rw [hfl]; simp [FunctionFlags.withIsCallback, hw]⟩
    · rw [if_neg hret] at hrun
      rw [Option.bind_eq_some] at hrun
      obtain ⟨rt, hrt, hrun⟩ := hrun
      rw [Option.map_eq_some'] at hrt
      obtain ⟨r, hr, hrteq⟩ := hrt
      obtain ⟨ri, rc, rp2⟩ := r
      subst hrteq
      obtain ⟨f, hf, hfl⟩ := commit_tail_flags hrun
      exact ⟨f, hf, by rw [hfl]; simp [FunctionFlags.withIsCallback, hw]⟩
  · intro wrappedIdx lastIdx order pool pool2 dw dl fw fl hne hdw hvw hdl hvl
      hflcb hlen hdisjp hnd hpw hpl hrun
    exact wrapperLink_spec hne hdw hvw hdl hvl hflcb hlen hdisjp hnd hpw hpl hrun

end Redscript

namespace Redscript

/-- A concrete wrapper builder for the C5 witness: callback flag set at the
builder, wrapper flag set. -/
def c5builder : FunctionBuilder :=
  { flags := ⟨false, false, false, true, false, true⟩,
    visibility := 0, name := [119],
    returnType := .prim .unit,
    params := [], locals := [], body := [], base := none, isWrapper := true }

/-- The concrete result triple of committing `c5builder`. -/
def c5resA : Idx × ConstantPool × TypeCache :=
  (FunctionBuilder.commit 9 sampleRepo c5builder 0 c3pool ⟨[]⟩).getD (0, c3pool, ⟨[]⟩)

/-- Wrapped function for the C5 witness: callback set, one parameter at
slot 3, one local at slot 5. -/
def c5fw : FunctionDef :=
  { visibility := 0, flags := ⟨false, false, false, true, false, true⟩,
    source := none, returnType := none, unk1 := false, baseMethod := none,
    parameters := [3], locals := [5], operator := none, cast := 0,
    code := [Instr.loc 5], unk2 := [] }

/-- Last wrapper for the C5 witness: callback-free, one parameter at
slot 4. -/
def c5fl : FunctionDef :=
  { visibility := 0, flags := ⟨false, false, false, false, false, true⟩,
    source := none, returnType := none, unk1 := false, baseMethod := none,
    parameters := [4], locals := [], operator := none, cast := 0,
    code := [], unk2 := [] }

/-- The wrapped definition header for the C5 witness. -/
def c5dw : Definition := ⟨1, 0, 0, 0, 0, .func c5fw⟩

/-- The last wrapper's definition header for the C5 witness. -/
def c5dl : Definition := ⟨2, 0, 0, 0, 0, .func c5fl⟩

/-- Pool for the C5 witness: the wrapped function at slot 1, the last
wrapper at slot 2, their parameters at 3 and 4, the wrapped local at 5. -/
def c5pool : ConstantPool :=
  { names := ⟨[noneStr], [(noneStr, 0)]⟩,
    tweakdbIds := ⟨[], []⟩, resources := ⟨[], []⟩, strings := ⟨[], []⟩,
    definitions := [Definition.default, c5dw, c5dl,
      ⟨1, 1, 0, 0, 0, .param ⟨0, 0⟩⟩,
      ⟨2, 2, 0, 0, 0, .param ⟨0, 0⟩⟩,
      ⟨0, 1, 0, 0, 0, .localVar ⟨0, 0⟩⟩] }

/-- The concrete linkage result for the C5 witness: the clone of local 5
lands at slot 6 and the remap order is `[6]`. -/
def c5res : ConstantPool := (wrapperLink 1 2 [6] c5pool).getD c5pool

/-- The C5 theorem at concrete inputs: a committed wrapper is
callback-free, and the concrete linkage run satisfies every hypothesis and
all three conclusions. -/
theorem c5_wrapper_linkage_witness :
    (∃ f, c5resA.2.1.functionAt c5resA.1 = some f ∧ f.flags.isCallback = false) ∧
    (∃ (f1 : FunctionDef), c5res.definitions.get? 1 =
         some { c5dl with name := c5dw.name, value := .func f1 } ∧
       f1.parameters = c5fl.parameters ∧
       f1.flags.isCallback = c5fw.flags.isCallback) ∧
    (∃ (f2 : FunctionDef), c5res.definitions.get? 2 =
         some { c5dw with name := c5dl.name, value := .func f2 } ∧
       f2.parameters = c5fw.parameters ∧ f2.locals = [6] ∧
       f2.flags.isCallback = false) ∧
    (∀ k (hk1 : k < c5fw.parameters.length) (hk2 : k < c5fl.parameters.length),
       ∃ (df dt : Definition),
         c5pool.definitions.get? (c5fw.parameters.get ⟨k, hk1⟩) = some df ∧
         c5res.definitions.get? (c5fw.parameters.get ⟨k, hk1⟩) = some df ∧
         c5res.definitions.get? (c5fl.parameters.get ⟨k, hk2⟩) =
           some { dt with name := df.name }) :=
  ⟨c5_wrapper_linkage.1 9 sampleRepo c5builder 0 c3pool ⟨[]⟩ c5resA.1 c5resA.2.1
      c5resA.2.2 (by decide) (by decide),
   c5_wrapper_linkage.2 1 2 [6] c5pool c5res c5dw c5dl c5fw c5fl
      (by decide) (by decide) (by decide) (by decide) (by decide) (by decide)
      (by decide) (by decide) (by decide) (by decide) (by decide) (by decide)⟩

end Redscript

namespace Redscript

/-- Modelled from the spec: the blob string codec (`io.rs` is not among
the staged sources): the string's bytes followed by a NUL terminator. -/
def encStr (s : Str0) : List Nat := s ++ [0]

/-- One step of the dedup loop of `ConstantPool::encode` (`bundle.rs`): a
string already in `dedup_map` is skipped; a fresh one records the current
blob position and appends its encoding to the blob. -/
def dedupInsert (acc : List (Str0 × Nat) × List Nat) (s : Str0) :
    List (Str0 × Nat) × List Nat :=
  match alook acc.1 s with
  | some _ => acc
  | none => (acc.1 ++ [(s, acc.2.length)], acc.2 ++ encStr s)

/-- The dedup loop of `ConstantPool::encode` over the chained string
tables: the map of first occurrences and the data blob, built in order. -/
def buildBlob (ss : List Str0) : List (Str0 × Nat) × List Nat :=
  ss.foldl dedupInsert ([], [])

/-- `Strings::encoded_offsets` (`bundle.rs`): every table string goes
through the dedup map; the `unwrap` panic on a missing entry is the outer
`none`. -/
def encodedOffsets (m : List (Str0 × Nat)) : List Str0 → Option (List Nat)
  | [] => some []
  | s :: rest =>
    (alook m s).bind (fun off => (encodedOffsets m rest).map (fun os => off :: os))

/-- A missed lookup means the key is not among the entries. -/
theorem alook_none_fst {β : Type} :
    ∀ {m : List (Str0 × β)} {s : Str0}, alook m s = none → s ∉ m.map Prod.fst := by
  intro m
  induction m with
  | nil => intro s h hmem; exact absurd hmem (List.not_mem_nil s)
  | cons kv rest ih =>
    intro s h hmem
    obtain ⟨k, v⟩ := kv
    by_cases hk : k = s
    · rw [alook, if_pos hk] at h
      exact Option.noConfusion h
    · rw [alook, if_neg hk] at h
      rcases List.mem_cons.mp hmem with heq | hmem2
      · exact hk heq.symm
      · exact ih h hmem2

/-- A hit survives appending entries on the right. -/
theorem alook_append_some {β : Type} :
    ∀ {m : List (Str0 × β)} {s : Str0} {v : β}, alook m s = some v →
      ∀ (e : List (Str0 × β)), alook (m ++ e) s = some v := by
  intro m
  induction m with
  | nil => intro s v h; exact Option.noConfusion h
  | cons kv rest ih =>
    intro s v h e
    obtain ⟨k, w⟩ := kv
    by_cases hk : k = s
    · rw [alook, if_pos hk] at h
      show alook ((k, w) :: (rest ++ e)) s = some v
      rw [alook, if_pos hk]
      exact h
    · rw [alook, if_neg hk] at h
      show alook ((k, w) :: (rest ++ e)) s = some v
      rw [alook, if_neg hk]
      exact ih h e

/-- With pairwise distinct keys the association list binds each key to a
single value: any entry with the looked-up key carries the looked-up
value. -/
theorem alook_nodup_unique {β : Type} :
    ∀ {m : List (Str0 × β)}, (m.map Prod.fst).Nodup →
      ∀ {s : Str0} {v : β}, alook m s = some v →
      ∀ q ∈ m, q.1 = s → q.2 = v := by
  intro m
  induction m with
  | nil => intro _ s v h; exact Option.noConfusion h
  | cons kv rest ih =>
    intro hnd s v h q hq hqs
    obtain ⟨k, w⟩ := kv
    simp only [List.map_cons, List.nodup_cons, List.mem_map] at hnd
    obtain ⟨hk0, hndr⟩ := hnd
    by_cases hk : k = s
    · rw [alook, if_pos hk] at h
      simp only [Option.some.injEq] at h
      subst h
      rcases List.mem_cons.mp hq with heq | hq2
      · rw [heq]
      · exact absurd ⟨q, hq2, hqs.trans hk.symm⟩ hk0
    · rw [alook, if_neg hk] at h
      rcases List.mem_cons.mp hq with heq | hq2
      · rw [heq] at hqs
        exact absurd hqs hk
      · exact ih hndr h q hq2 hqs

/-- Invariant of the dedup fold: the blob is exactly the concatenation of
the encodings of the recorded strings, the recorded strings are pairwise
distinct, and every recorded offset points at its string's encoding. -/
def BlobInv (m : List (Str0 × Nat)) (b : List Nat) : Prop :=
  b = (m.map (fun q => encStr q.1)).join ∧
  (m.map Prod.fst).Nodup ∧
  ∀ q ∈ m, ∃ pre post, b = pre ++ encStr q.1 ++ post ∧ pre.length = q.2

/-- The dedup fold preserves the invariant, only appends to the map, and
gives every processed string a recorded offset. -/
theorem foldl_dedup_inv :
    ∀ (ss : List Str0) (m0 : List (Str0 × Nat)) (b0 : List Nat),
      BlobInv m0 b0 →
      BlobInv (ss.foldl dedupInsert (m0, b0)).1 (ss.foldl dedupInsert (m0, b0)).2 ∧
      (∃ ext, (ss.foldl dedupInsert (m0, b0)).1 = m0 ++ ext) ∧
      (∀ s ∈ ss, ∃ off, alook (ss.foldl dedupInsert (m0, b0)).1 s = some off) := by
  intro ss
  induction ss with
  | nil =>
    intro m0 b0 hinv
    exact ⟨hinv, ⟨[], by simp⟩, fun s hs => absurd hs (List.not_mem_nil s)⟩
  | cons s rest ih =>
    intro m0 b0 hinv
    obtain ⟨hjoin, hnd, hoff⟩ := hinv
    simp only [List.foldl_cons]
    rcases hl : alook m0 s with _ | v
    · have hstep : dedupInsert (m0, b0) s =
          (m0 ++ [(s, b0.length)], b0 ++ encStr s) := by
        unfold dedupInsert
        rw [hl]
      have hinv2 : BlobInv (m0 ++ [(s, b0.length)]) (b0 ++ encStr s) := by
        refine ⟨?_, ?_, ?_⟩
        · rw [hjoin]
          simp
        · simp only [List.map_append, List.map_cons, List.map_nil]
          rw [List.nodup_append]
          exact ⟨hnd, List.nodup_singleton s,
            fun a ha hb => by
              simp only [List.mem_singleton] at hb
              subst hb
              exact alook_none_fst hl ha⟩
        · intro q hq
          rcases List.mem_append.mp hq with hq1 | hq2
          · obtain ⟨pre, post, hb, hlen⟩ := hoff q hq1
            exact ⟨pre, post ++ encStr s, by rw [hb]; simp, hlen⟩
          · simp only [List.mem_singleton] at hq2
            subst hq2
            exact ⟨b0, [], by simp, rfl⟩
      obtain ⟨hinv3, ⟨ext, hext⟩, htot⟩ := ih _ _ hinv2
      rw [hstep]
      refine ⟨hinv3, ⟨(s, b0.length) :: ext, by rw [hext]; simp⟩, ?_⟩
      intro t ht
      rcases List.mem_cons.mp ht with heq | ht2
      · subst heq
        rw [hext]
        exact ⟨b0.length,
          alook_append_some (alook_append_new m0 t b0.length hl) ext⟩
      · exact htot t ht2
    · have hstep : dedupInsert (m0, b0) s = (m0, b0) := by
        unfold dedupInsert
        rw [hl]
      obtain ⟨hinv3, ⟨ext, hext⟩, htot⟩ := ih m0 b0 ⟨hjoin, hnd, hoff⟩
      rw [hstep]
      refine ⟨hinv3, ⟨ext, hext⟩, ?_⟩
      intro t ht
      rcases List.mem_cons.mp ht with heq | ht2
      · subst heq
        rw [hext]
        exact ⟨v, alook_append_some hl ext⟩
      · exact htot t ht2

/-- `encoded_offsets` succeeds when every table string is in the map, and
each produced entry is that string's recorded offset. -/
theorem encodedOffsets_total {m : List (Str0 × Nat)} :
    ∀ {table : List Str0}, (∀ s ∈ table, ∃ off, alook m s = some off) →
      ∃ offs, encodedOffsets m table = some offs ∧ offs.length = table.length ∧
        ∀ k (hk : k < table.length) (hk2 : k < offs.length),
          alook m (table.get ⟨k, hk⟩) = some (offs.get ⟨k, hk2⟩) := by
  intro table
  induction table with
  | nil =>
    exact fun _ => ⟨[], rfl, rfl, fun k hk hk2 => absurd hk (by simp)⟩
  | cons s rest ih =>
    intro h
    obtain ⟨off, hoff⟩ := h s (List.mem_cons_self s rest)
    obtain ⟨offs, hoffs, hlen, hall⟩ :=
      ih (fun t ht => h t (List.mem_cons_of_mem s ht))
    refine ⟨off :: offs, ?_, by simp [hlen], ?_⟩
    · unfold encodedOffsets
      rw [hoff, Option.some_bind, hoffs, Option.map_some']
    · intro k hk hk2
      rcases k with _ | k
      · exact hoff
      · exact hall k (by simpa using hk) (by simpa using hk2)

end Redscript

namespace Redscript

/-- C6: in `ConstantPool::encode`, after the dedup loop over the four
chained string tables, the recorded strings are pairwise distinct and the
data blob is exactly the concatenation of their encodings — every distinct
string is written exactly once; every chained string has a recorded offset
pointing at that single occurrence (and it is the only offset recorded for
that string), and `encoded_offsets` sends every table entry through that
map, so every offset-table entry refers to the single occurrence. -/
theorem c6_encode_blob_dedup (ns ts rs ss : List Str0) :
    ((buildBlob (ns ++ ts ++ rs ++ ss)).1.map Prod.fst).Nodup ∧
    (buildBlob (ns ++ ts ++ rs ++ ss)).2 =
      ((buildBlob (ns ++ ts ++ rs ++ ss)).1.map (fun q => encStr q.1)).join ∧
    (∀ s ∈ ns ++ ts ++ rs ++ ss, ∃ off,
       alook (buildBlob (ns ++ ts ++ rs ++ ss)).1 s = some off ∧
       (∃ pre post, (buildBlob (ns ++ ts ++ rs ++ ss)).2 =
          pre ++ encStr s ++ post ∧ pre.length = off) ∧
       (∀ q ∈ (buildBlob (ns ++ ts ++ rs ++ ss)).1, q.1 = s → q.2 = off)) ∧
    (∀ table : List Str0, (∀ s ∈ table, s ∈ ns ++ ts ++ rs ++ ss) →
       ∃ offs, encodedOffsets (buildBlob (ns ++ ts ++ rs ++ ss)).1 table =
           some offs ∧
         offs.length = table.length ∧
         ∀ k (hk : k < table.length) (hk2 : k < offs.length),
           alook (buildBlob (ns ++ ts ++ rs ++ ss)).1 (table.get ⟨k, hk⟩) =
             some (offs.get ⟨k, hk2⟩)) := by
  have hbase : BlobInv [] [] := ⟨rfl, List.nodup_nil, fun q hq => absurd hq (List.not_mem_nil q)⟩
  obtain ⟨⟨hjoin, hnd, hoffs⟩, hext, htot⟩ :=
    foldl_dedup_inv (ns ++ ts ++ rs ++ ss) [] [] hbase
  have htotal : ∀ s ∈ ns ++ ts ++ rs ++ ss, ∃ off,
      alook (buildBlob (ns ++ ts ++ rs ++ ss)).1 s = some off := htot
  refine ⟨hnd, hjoin, ?_, ?_⟩
  · intro s hs
    obtain ⟨off, hoff⟩ := htotal s hs
    obtain ⟨pre, post, hb, hlen⟩ := hoffs (s, off) (alook_mem hoff)
    exact ⟨off, hoff, ⟨pre, post, hb, hlen⟩, alook_nodup_unique hnd hoff⟩
  · intro table htab
    exact encodedOffsets_total (fun s hs => htotal s (htab s hs))

/-- The C6 theorem at a concrete input: the name `[97]` appears in two
tables and the free-string table repeats `[98]`; both offset tables
resolve through the single recorded occurrences. -/
theorem c6_encode_blob_dedup_witness :
    ∃ offs, encodedOffsets
        (buildBlob ([[97]] ++ [[98]] ++ [[97]] ++ [[98], [98]])).1 [[97], [98]] =
        some offs ∧
      offs.length = ([[97], [98]] : List Str0).length ∧
      ∀ k (hk : k < ([[97], [98]] : List Str0).length) (hk2 : k < offs.length),
        alook (buildBlob ([[97]] ++ [[98]] ++ [[97]] ++ [[98], [98]])).1
            (([[97], [98]] : List Str0).get ⟨k, hk⟩) =
          some (offs.get ⟨k, hk2⟩) :=
  (c6_encode_blob_dedup [[97]] [[98]] [[97]] [[98], [98]]).2.2.2 [[97], [98]]
    (by decide)

end Redscript

namespace Redscript

/-- Modelled from the spec: a self-delimiting number codec for definition
bodies (`definition.rs` and `io.rs` are not among the staged sources; the
spec fixes the container layout but not the body byte format, so the body
codec is modelled as a simple injective serialization). -/
def encNat (n : Nat) : List Nat := List.replicate n 1 ++ [0]

/-- Modelled from the spec: reader for `encNat`. -/
def decNat : List Nat → Option (Nat × List Nat)
  | [] => none
  | 0 :: rest => some (0, rest)
  | (_ + 1) :: rest => (decNat rest).map (fun r => (r.1 + 1, r.2))

/-- Modelled from the spec: boolean body codec. -/
def encBool (b : Bool) : List Nat := [if b then 1 else 0]

/-- Modelled from the spec: reader for `encBool`. -/
def decBool : List Nat → Option (Bool × List Nat)
  | 0 :: rest => some (false, rest)
  | 1 :: rest => some (true, rest)
  | _ => none

/-- Modelled from the spec: signed number body codec. -/
def encInt (i : Int) : List Nat :=
  if i < 0 then 1 :: encNat (-i).toNat else 0 :: encNat i.toNat

/-- Modelled from the spec: reader for `encInt`. -/
def decInt : List Nat → Option (Int × List Nat)
  | 0 :: rest => (decNat rest).map (fun r => ((r.1 : Int), r.2))
  | 1 :: rest => (decNat rest).map (fun r => (-(r.1 : Int), r.2))
  | _ => none

/-- Modelled from the spec: length-prefixed list body codec. -/
def encListP {α : Type} (enc : α → List Nat) (xs : List α) : List Nat :=
  encNat xs.length ++ (xs.map enc).join

/-- Modelled from the spec: counted reader for list elements. -/
def decListPN {α : Type} (dec : List Nat → Option (α × List Nat)) :
    Nat → List Nat → Option (List α × List Nat)
  | 0, bs => some ([], bs)
  | n + 1, bs =>
    (dec bs).bind (fun r => (decListPN dec n r.2).map (fun rs => (r.1 :: rs.1, rs.2)))

/-- Modelled from the spec: reader for `encListP`. -/
def decListP {α : Type} (dec : List Nat → Option (α × List Nat))
    (bs : List Nat) : Option (List α × List Nat) :=
  (decNat bs).bind (fun r => decListPN dec r.1 r.2)

/-- Modelled from the spec: optional-value body codec. -/
def encOptP {α : Type} (enc : α → List Nat) : Option α → List Nat
  | none => [0]
  | some x => 1 :: enc x

/-- Modelled from the spec: reader for `encOptP`. -/
def decOptP {α : Type} (dec : List Nat → Option (α × List Nat)) :
    List Nat → Option (Option α × List Nat)
  | 0 :: rest => some (none, rest)
  | 1 :: rest => (dec rest).map (fun r => (some r.1, r.2))
  | _ => none

theorem decNat_rt (n : Nat) (rest : List Nat) : decNat (encNat n ++ rest) = some (n, rest) := by
  induction n with
  | zero => rfl
  | succ k ih =>
    show decNat (1 :: (List.replicate k 1 ++ [0]) ++ rest) = _
    show (decNat ((List.replicate k 1 ++ [0]) ++ rest)).map _ = _
    have : (List.replicate k 1 ++ [0]) ++ rest = encNat k ++ rest := by
      simp [encNat]
    rw [this, ih]
    rfl

theorem decBool_rt (b : Bool) (rest : List Nat) :
    decBool (encBool b ++ rest) = some (b, rest) := by
  cases b <;> rfl

theorem decInt_rt (i : Int) (rest : List Nat) :
    decInt (encInt i ++ rest) = some (i, rest) := by
  by_cases hi : i < 0
  · simp only [encInt, if_pos hi]
    show (decNat (encNat (-i).toNat ++ rest)).map _ = _
    rw [decNat_rt]
    simp only [Option.map_some']
    have h2 : -((-i).toNat : Int) = i := by omega
    rw [h2]
  · simp only [encInt, if_neg hi]
    show (decNat (encNat i.toNat ++ rest)).map _ = _
    rw [decNat_rt]
    simp only [Option.map_some']
    have h2 : ((i.toNat : Int)) = i := by omega
    rw [h2]

theorem decListPN_rt {α : Type} {enc : α → List Nat}
    {dec : List Nat → Option (α × List Nat)}
    (hel : ∀ (x : α) (rest : List Nat), dec (enc x ++ rest) = some (x, rest)) :
    ∀ (xs : List α) (rest : List Nat),
      decListPN dec xs.length ((xs.map enc).join ++ rest) = some (xs, rest) := by
  intro xs
  induction xs with
  | nil => intro rest; rfl
  | cons x tail ih =>
    intro rest
    show (dec ((enc x ++ (tail.map enc).join) ++ rest)).bind _ = _
    rw [List.append_assoc, hel]
    show (decListPN dec tail.length ((tail.map enc).join ++ rest)).map _ = _
    rw [ih]
    rfl

theorem decListP_rt {α : Type} {enc : α → List Nat}
    {dec : List Nat → Option (α × List Nat)}
    (hel : ∀ (x : α) (rest : List Nat), dec (enc x ++ rest) = some (x, rest))
    (xs : List α) (rest : List Nat) :
    decListP dec (encListP enc xs ++ rest) = some (xs, rest) := by
  show (decNat ((encNat xs.length ++ (xs.map enc).join) ++ rest)).bind _ = _
  rw [List.append_assoc, decNat_rt]
  show decListPN dec xs.length ((xs.map enc).join ++ rest) = _
  rw [decListPN_rt hel]

theorem decOptP_rt {α : Type} {enc : α → List Nat}
    {dec : List Nat → Option (α × List Nat)}
    (hel : ∀ (x : α) (rest : List Nat), dec (enc x ++ rest) = some (x, rest))
    (o : Option α) (rest : List Nat) :
    decOptP dec (encOptP enc o ++ rest) = some (o, rest) := by
  cases o with
  | none => rfl
  | some x =>
    show (dec (enc x ++ rest)).map _ = _
    rw [hel]
    rfl

end Redscript

namespace Redscript

/-- Modelled from the spec: byte-list (index-list, string) body codec. -/
def encNats (xs : List Nat) : List Nat := encListP encNat xs

/-- Modelled from the spec: reader for `encNats`. -/
def decNats (bs : List Nat) : Option (List Nat × List Nat) := decListP decNat bs

/-- Modelled from the spec: index-pair body codec (`source` positions). -/
def encPairNN (p : Idx × Nat) : List Nat := encNat p.1 ++ encNat p.2

/-- Modelled from the spec: reader for `encPairNN`. -/
def decPairNN (bs : List Nat) : Option ((Idx × Nat) × List Nat) :=
  (decNat bs).bind (fun r1 => (decNat r1.2).map (fun r2 => ((r1.1, r2.1), r2.2)))

/-- Modelled from the spec: instruction body codec (`bytecode.rs` is not
among the staged sources). -/
def encInstr : Instr → List Nat
  | .loc i => 0 :: encNat i
  | .op n => 1 :: encNat n

/-- Modelled from the spec: reader for `encInstr`. -/
def decInstr : List Nat → Option (Instr × List Nat)
  | 0 :: bs => (decNat bs).map (fun r => (Instr.loc r.1, r.2))
  | 1 :: bs => (decNat bs).map (fun r => (Instr.op r.1, r.2))
  | _ => none

/-- Modelled from the spec: the bit-packed function flags, field by field. -/
def encFunctionFlags (f : FunctionFlags) : List Nat :=
  encBool f.isNative ++ encBool f.isStatic ++ encBool f.isFinal ++
    encBool f.isCallback ++ encBool f.isQuest ++ encBool f.hasBody

/-- Modelled from the spec: reader for `encFunctionFlags`. -/
def decFunctionFlags (bs : List Nat) : Option (FunctionFlags × List Nat) :=
  (decBool bs).bind (fun r1 =>
  (decBool r1.2).bind (fun r2 =>
  (decBool r2.2).bind (fun r3 =>
  (decBool r3.2).bind (fun r4 =>
  (decBool r4.2).bind (fun r5 =>
  (decBool r5.2).map (fun r6 =>
    (⟨r1.1, r2.1, r3.1, r4.1, r5.1, r6.1⟩, r6.2)))))))

/-- Modelled from the spec: pool-type body codec. -/
def encPoolType : PoolType → List Nat
  | .prim => [0]
  | .cls => [1]
  | .ref t => 2 :: encNat t
  | .weakRef t => 3 :: encNat t
  | .array t => 4 :: encNat t
  | .scriptRef t => 5 :: encNat t

/-- Modelled from the spec: reader for `encPoolType`. -/
def decPoolType : List Nat → Option (PoolType × List Nat)
  | 0 :: bs => some (.prim, bs)
  | 1 :: bs => some (.cls, bs)
  | 2 :: bs => (decNat bs).map (fun r => (PoolType.ref r.1, r.2))
  | 3 :: bs => (decNat bs).map (fun r => (PoolType.weakRef r.1, r.2))
  | 4 :: bs => (decNat bs).map (fun r => (PoolType.array r.1, r.2))
  | 5 :: bs => (decNat bs).map (fun r => (PoolType.scriptRef r.1, r.2))
  | _ => none

theorem decNats_rt (xs : List Nat) (rest : List Nat) :
    decNats (encNats xs ++ rest) = some (xs, rest) :=
  decListP_rt decNat_rt xs rest

theorem decPairNN_rt (p : Idx × Nat) (rest : List Nat) :
    decPairNN (encPairNN p ++ rest) = some (p, rest) := by
  show (decNat ((encNat p.1 ++ encNat p.2) ++ rest)).bind _ = _
  rw [List.append_assoc, decNat_rt]
  show (decNat (encNat p.2 ++ rest)).map _ = _
  rw [decNat_rt]
  rfl

theorem decInstr_rt (i : Instr) (rest : List Nat) :
    decInstr (encInstr i ++ rest) = some (i, rest) := by
  cases i with
  | loc k =>
    show (decNat (encNat k ++ rest)).map _ = _
    rw [decNat_rt]
    rfl
  | op n =>
    show (decNat (encNat n ++ rest)).map _ = _
    rw [decNat_rt]
    rfl

theorem decFunctionFlags_rt (f : FunctionFlags) (rest : List Nat) :
    decFunctionFlags (encFunctionFlags f ++ rest) = some (f, rest) := by
  obtain ⟨b1, b2, b3, b4, b5, b6⟩ := f
  simp only [encFunctionFlags, decFunctionFlags, List.append_assoc, decBool_rt,
    Option.some_bind, Option.map_some']

theorem decPoolType_rt (t : PoolType) (rest : List Nat) :
    decPoolType (encPoolType t ++ rest) = some (t, rest) := by
  cases t <;> first
    | rfl
    | (show (decNat (encNat _ ++ rest)).map _ = _
       rw [decNat_rt]
       rfl)

end Redscript

namespace Redscript

theorem decOptNat_rt (o : Option Nat) (rest : List Nat) :
    decOptP decNat (encOptP encNat o ++ rest) = some (o, rest) :=
  decOptP_rt decNat_rt o rest

theorem decOptPair_rt (o : Option (Idx × Nat)) (rest : List Nat) :
    decOptP decPairNN (encOptP encPairNN o ++ rest) = some (o, rest) :=
  decOptP_rt decPairNN_rt o rest

theorem decOptNats_rt (o : Option (List Nat)) (rest : List Nat) :
    decOptP decNats (encOptP encNats o ++ rest) = some (o, rest) :=
  decOptP_rt decNats_rt o rest

theorem decInstrs_rt (xs : List Instr) (rest : List Nat) :
    decListP decInstr (encListP encInstr xs ++ rest) = some (xs, rest) :=
  decListP_rt decInstr_rt xs rest

/-- Modelled from the spec: `Class` body codec. -/
def encClassDef (c : ClassDef) : List Nat :=
  encNat c.visibility ++ encNat c.flags ++ encNat c.base ++ encNats c.methods ++
    encNats c.fields ++ encNats c.overrides

/-- Modelled from the spec: reader for `encClassDef`. -/
def decClassDef (bs : List Nat) : Option (ClassDef × List Nat) :=
  (decNat bs).bind (fun r1 =>
  (decNat r1.2).bind (fun r2 =>
  (decNat r2.2).bind (fun r3 =>
  (decNats r3.2).bind (fun r4 =>
  (decNats r4.2).bind (fun r5 =>
  (decNats r5.2).map (fun r6 =>
    (⟨r1.1, r2.1, r3.1, r4.1, r5.1, r6.1⟩, r6.2)))))))

/-- Modelled from the spec: `Enum` body codec. -/
def encEnumDef (e : EnumDef) : List Nat :=
  encNat e.flags ++ encNat e.size ++ encNats e.members ++ encBool e.unk1

/-- Modelled from the spec: reader for `encEnumDef`. -/
def decEnumDef (bs : List Nat) : Option (EnumDef × List Nat) :=
  (decNat bs).bind (fun r1 =>
  (decNat r1.2).bind (fun r2 =>
  (decNats r2.2).bind (fun r3 =>
  (decBool r3.2).map (fun r4 =>
    (⟨r1.1, r2.1, r3.1, r4.1⟩, r4.2)))))

/-- Modelled from the spec: `Function` body codec. -/
def encFunctionDef (f : FunctionDef) : List Nat :=
  encNat f.visibility ++ encFunctionFlags f.flags ++ encOptP encPairNN f.source ++
    encOptP encNat f.returnType ++ encBool f.unk1 ++ encOptP encNat f.baseMethod ++
    encNats f.parameters ++ encNats f.locals ++ encOptP encNat f.operator ++
    encNat f.cast ++ encListP encInstr f.code ++ encNats f.unk2

/-- Modelled from the spec: reader for `encFunctionDef`. -/
def decFunctionDef (bs : List Nat) : Option (FunctionDef × List Nat) :=
  (decNat bs).bind (fun r1 =>
  (decFunctionFlags r1.2).bind (fun r2 =>
  (decOptP decPairNN r2.2).bind (fun r3 =>
  (decOptP decNat r3.2).bind (fun r4 =>
  (decBool r4.2).bind (fun r5 =>
  (decOptP decNat r5.2).bind (fun r6 =>
  (decNats r6.2).bind (fun r7 =>
  (decNats r7.2).bind (fun r8 =>
  (decOptP decNat r8.2).bind (fun r9 =>
  (decNat r9.2).bind (fun r10 =>
  (decListP decInstr r10.2).bind (fun r11 =>
  (decNats r11.2).map (fun r12 =>
    (⟨r1.1, r2.1, r3.1, r4.1, r5.1, r6.1, r7.1, r8.1, r9.1, r10.1, r11.1, r12.1⟩,
      r12.2)))))))))))))

/-- Modelled from the spec: `Parameter` body codec. -/
def encParameterDef (p : ParameterDef) : List Nat := encNat p.typ ++ encNat p.flags

/-- Modelled from the spec: reader for `encParameterDef`. -/
def decParameterDef (bs : List Nat) : Option (ParameterDef × List Nat) :=
  (decNat bs).bind (fun r1 =>
  (decNat r1.2).map (fun r2 => (⟨r1.1, r2.1⟩, r2.2)))

/-- Modelled from the spec: `Local` body codec. -/
def encLocalDef (l : LocalDef) : List Nat := encNat l.typ ++ encNat l.flags

/-- Modelled from the spec: reader for `encLocalDef`. -/
def decLocalDef (bs : List Nat) : Option (LocalDef × List Nat) :=
  (decNat bs).bind (fun r1 =>
  (decNat r1.2).map (fun r2 => (⟨r1.1, r2.1⟩, r2.2)))

/-- Modelled from the spec: `Field` body codec. -/
def encFieldDef (f : FieldDef) : List Nat :=
  encNat f.visibility ++ encNat f.typ ++ encNat f.flags ++
    encOptP encNats f.hint ++ encNats f.attributes ++ encNats f.defaults

/-- Modelled from the spec: reader for `encFieldDef`. -/
def decFieldDef (bs : List Nat) : Option (FieldDef × List Nat) :=
  (decNat bs).bind (fun r1 =>
  (decNat r1.2).bind (fun r2 =>
  (decNat r2.2).bind (fun r3 =>
  (decOptP decNats r3.2).bind (fun r4 =>
  (decNats r4.2).bind (fun r5 =>
  (decNats r5.2).map (fun r6 =>
    (⟨r1.1, r2.1, r3.1, r4.1, r5.1, r6.1⟩, r6.2)))))))

/-- Modelled from the spec: `SourceFile` body codec. -/
def encSourceFileDef (s : SourceFileDef) : List Nat := encNats s.path

/-- Modelled from the spec: reader for `encSourceFileDef`. -/
def decSourceFileDef (bs : List Nat) : Option (SourceFileDef × List Nat) :=
  (decNats bs).map (fun r => (⟨r.1⟩, r.2))

theorem decClassDef_rt (c : ClassDef) (rest : List Nat) :
    decClassDef (encClassDef c ++ rest) = some (c, rest) := by
  obtain ⟨a1, a2, a3, a4, a5, a6⟩ := c
  simp only [encClassDef, decClassDef, List.append_assoc, decNat_rt, decNats_rt,
    Option.some_bind, Option.map_some']

theorem decEnumDef_rt (e : EnumDef) (rest : List Nat) :
    decEnumDef (encEnumDef e ++ rest) = some (e, rest) := by
  obtain ⟨a1, a2, a3, a4⟩ := e
  simp only [encEnumDef, decEnumDef, List.append_assoc, decNat_rt, decNats_rt,
    decBool_rt, Option.some_bind, Option.map_some']

theorem decFunctionDef_rt (f : FunctionDef) (rest : List Nat) :
    decFunctionDef (encFunctionDef f ++ rest) = some (f, rest) := by
  obtain ⟨a1, a2, a3, a4, a5, a6, a7, a8, a9, a10, a11, a12⟩ := f
  simp only [encFunctionDef, decFunctionDef, List.append_assoc, decNat_rt,
    decFunctionFlags_rt, decOptPair_rt, decOptNat_rt, decBool_rt, decNats_rt,
    decInstrs_rt, Option.some_bind, Option.map_some']

theorem decParameterDef_rt (p : ParameterDef) (rest : List Nat) :
    decParameterDef (encParameterDef p ++ rest) = some (p, rest) := by
  obtain ⟨a1, a2⟩ := p
  simp only [encParameterDef, decParameterDef, List.append_assoc, decNat_rt,
    Option.some_bind, Option.map_some']

theorem decLocalDef_rt (l : LocalDef) (rest : List Nat) :
    decLocalDef (encLocalDef l ++ rest) = some (l, rest) := by
  obtain ⟨a1, a2⟩ := l
  simp only [encLocalDef, decLocalDef, List.append_assoc, decNat_rt,
    Option.some_bind, Option.map_some']

theorem decFieldDef_rt (f : FieldDef) (rest : List Nat) :
    decFieldDef (encFieldDef f ++ rest) = some (f, rest) := by
  obtain ⟨a1, a2, a3, a4, a5, a6⟩ := f
  simp only [encFieldDef, decFieldDef, List.append_assoc, decNat_rt, decOptNats_rt,
    decNats_rt, Option.some_bind, Option.map_some']

theorem decSourceFileDef_rt (s : SourceFileDef) (rest : List Nat) :
    decSourceFileDef (encSourceFileDef s ++ rest) = some (s, rest) := by
  obtain ⟨a1⟩ := s
  simp only [encSourceFileDef, decSourceFileDef, decNats_rt, Option.map_some']

/-- Modelled from the spec: the per-variant body serialization dispatched
by the header's type tag (`definition.rs` is not among the staged
sources). -/
def encAny : AnyDefinition → List Nat
  | .typ t => encPoolType t
  | .cls c => encClassDef c
  | .enumValue v => encInt v
  | .enm e => encEnumDef e
  | .bitField v => encNat v
  | .func f => encFunctionDef f
  | .param p => encParameterDef p
  | .localVar l => encLocalDef l
  | .field f => encFieldDef f
  | .sourceFile s => encSourceFileDef s

/-- Modelled from the spec: the body reader dispatched by the header's
type tag (0–9, as `DefinitionType` in `bundle.rs`). -/
def decAny : Nat → List Nat → Option (AnyDefinition × List Nat)
  | 0, bs => (decPoolType bs).map (fun r => (.typ r.1, r.2))
  | 1, bs => (decClassDef bs).map (fun r => (.cls r.1, r.2))
  | 2, bs => (decInt bs).map (fun r => (.enumValue r.1, r.2))
  | 3, bs => (decEnumDef bs).map (fun r => (.enm r.1, r.2))
  | 4, bs => (decNat bs).map (fun r => (.bitField r.1, r.2))
  | 5, bs => (decFunctionDef bs).map (fun r => (.func r.1, r.2))
  | 6, bs => (decParameterDef bs).map (fun r => (.param r.1, r.2))
  | 7, bs => (decLocalDef bs).map (fun r => (.localVar r.1, r.2))
  | 8, bs => (decFieldDef bs).map (fun r => (.field r.1, r.2))
  | 9, bs => (decSourceFileDef bs).map (fun r => (.sourceFile r.1, r.2))
  | _, _ => none

theorem decAny_rt (v : AnyDefinition) (rest : List Nat) :
    decAny v.tag (encAny v ++ rest) = some (v, rest) := by
  cases v with
  | typ t => show (decPoolType (encPoolType t ++ rest)).map _ = _; rw [decPoolType_rt]; rfl
  | cls c => show (decClassDef (encClassDef c ++ rest)).map _ = _; rw [decClassDef_rt]; rfl
  | enumValue v => show (decInt (encInt v ++ rest)).map _ = _; rw [decInt_rt]; rfl
  | enm e => show (decEnumDef (encEnumDef e ++ rest)).map _ = _; rw [decEnumDef_rt]; rfl
  | bitField v => show (decNat (encNat v ++ rest)).map _ = _; rw [decNat_rt]; rfl
  | func f => show (decFunctionDef (encFunctionDef f ++ rest)).map _ = _; rw [decFunctionDef_rt]; rfl
  | param p => show (decParameterDef (encParameterDef p ++ rest)).map _ = _; rw [decParameterDef_rt]; rfl
  | localVar l => show (decLocalDef (encLocalDef l ++ rest)).map _ = _; rw [decLocalDef_rt]; rfl
  | field f => show (decFieldDef (encFieldDef f ++ rest)).map _ = _; rw [decFieldDef_rt]; rfl
  | sourceFile s => show (decSourceFileDef (encSourceFileDef s ++ rest)).map _ = _; rw [decSourceFileDef_rt]; rfl

end Redscript

namespace Redscript

/-- Modelled from the spec: NUL-terminated string reader of the blob codec
(`io.rs` is not among the staged sources). -/
def readStr : List Nat → Option Str0
  | [] => none
  | 0 :: _ => some []
  | (b + 1) :: rest => (readStr rest).map (fun s => (b + 1) :: s)

/-- `decode_from`'s per-offset read: seek into the data blob and decode a
string (`bundle.rs`). -/
def decodeStr (blob : List Nat) (off : Nat) : Option Str0 := readStr (blob.drop off)

/-- The string reads of `Strings::decode_from` (`bundle.rs`), one per
offset-table entry, in order. -/
def decodeStrings (blob : List Nat) : List Nat → Option (List Str0)
  | [] => some []
  | off :: rest =>
    (decodeStr blob off).bind (fun s => (decodeStrings blob rest).map (s :: ·))

/-- The mapping rebuild of `Strings::decode_from` (`bundle.rs`):
`mappings.insert(str, idx)` for every decoded string in order. -/
def buildMappings (ss : List Str0) : List (Str0 × Idx) :=
  ss.enum.foldl (fun m p => ainsert m p.2 p.1) []

/-- `Strings::decode_from` (`bundle.rs`): strings read back through the
offset table, mappings rebuilt by insertion. -/
def StrTable.decodeFrom (blob : List Nat) (offs : List Nat) : Option StrTable :=
  (decodeStrings blob offs).map (fun ss => ⟨ss, buildMappings ss⟩)

/-- `DefinitionHeader` (`bundle.rs`): the 20-byte per-definition record —
name, parent, body offset, body size, type tag, three unknown bytes —
modelled as a record since its codec is a plain field sequence. -/
structure DefHeader where
  name : Idx
  parent : Idx
  offset : Nat
  size : Nat
  tag : Nat
  unk1 : Nat
  unk2 : Nat
  unk3 : Nat
deriving DecidableEq, Repr

/-- `DefinitionHeader::DEFAULT` (`bundle.rs`): the slot-0 header. -/
def DefHeader.default : DefHeader := ⟨0, 0, 0, 0, 0, 0, 0, 0⟩

/-- The body stream of `ConstantPool::encode` (`bundle.rs`):
`encode_definition` per definition after slot 0, recording each body's
offset and size; offsets are modelled relative to the body region's start
(the Rust `StreamOffset` records the same positions shifted by the fixed
region base). -/
def encodeDefs : List Definition → Nat → List Nat × List DefHeader
  | [], _ => ([], [])
  | d :: rest, off =>
    let bs := encAny d.value
    let r := encodeDefs rest (off + bs.length)
    (bs ++ r.1, ⟨d.name, d.parent, off, bs.length, d.value.tag, d.unk1, d.unk2, d.unk3⟩ :: r.2)

/-- The definition reads of `ConstantPool::decode` (`bundle.rs`): for each
header after slot 0, seek to its offset and decode the body by its type
tag, rebuilding the definition from the header fields. -/
def decodeDefs (bodies : List Nat) : List DefHeader → Option (List Definition)
  | [] => some []
  | h :: rest =>
    (decAny h.tag (bodies.drop h.offset)).bind (fun r =>
      (decodeDefs bodies rest).map (fun ds =>
        ⟨h.name, h.parent, h.unk1, h.unk2, h.unk3, r.1⟩ :: ds))

/-- The encoded pool (`ConstantPool::encode`, `bundle.rs`): the dedup data
blob, the four offset tables, the definition-header table (slot 0 holds
the default header) and the body region. -/
structure EncodedPool where
  blob : List Nat
  nameOffs : List Nat
  tweakOffs : List Nat
  resOffs : List Nat
  strOffs : List Nat
  headers : List DefHeader
  bodies : List Nat
deriving DecidableEq, Repr

/-- `ConstantPool::encode` (`bundle.rs`): dedup the chained string tables
into the blob, emit one offset table per string table through the dedup
map, write the default header for slot 0 and stream the remaining
definition bodies; `none` models the `unwrap` on a missing dedup entry. -/
def ConstantPool.encodeE (pool : ConstantPool) : Option EncodedPool :=
  (encodedOffsets (buildBlob (pool.names.strings ++ pool.tweakdbIds.strings ++
      pool.resources.strings ++ pool.strings.strings)).1 pool.names.strings).bind (fun no =>
  (encodedOffsets (buildBlob (pool.names.strings ++ pool.tweakdbIds.strings ++
      pool.resources.strings ++ pool.strings.strings)).1 pool.tweakdbIds.strings).bind (fun tw =>
  (encodedOffsets (buildBlob (pool.names.strings ++ pool.tweakdbIds.strings ++
      pool.resources.strings ++ pool.strings.strings)).1 pool.resources.strings).bind (fun ro =>
  (encodedOffsets (buildBlob (pool.names.strings ++ pool.tweakdbIds.strings ++
      pool.resources.strings ++ pool.strings.strings)).1 pool.strings.strings).bind (fun so =>
    some ⟨(buildBlob (pool.names.strings ++ pool.tweakdbIds.strings ++
        pool.resources.strings ++ pool.strings.strings)).2,
      no, tw, ro, so,
      DefHeader.default :: (encodeDefs (pool.definitions.drop 1) 0).2,
      (encodeDefs (pool.definitions.drop 1) 0).1⟩))))

/-- `ConstantPool::decode` (`bundle.rs`): read the four string tables from
the blob through their offset tables, push the default definition for
slot 0 and decode the remaining definitions from their headers. -/
def ConstantPool.decodeE (e : EncodedPool) : Option ConstantPool :=
  (StrTable.decodeFrom e.blob e.nameOffs).bind (fun nt =>
  (StrTable.decodeFrom e.blob e.tweakOffs).bind (fun tt =>
  (StrTable.decodeFrom e.blob e.resOffs).bind (fun rt =>
  (StrTable.decodeFrom e.blob e.strOffs).bind (fun st =>
    (decodeDefs e.bodies (e.headers.drop 1)).map (fun ds =>
      ⟨nt, tt, rt, st, Definition.default :: ds⟩)))))

theorem readStr_rt : ∀ (s : Str0) (post : List Nat), 0 ∉ s →
    readStr (s ++ 0 :: post) = some s := by
  intro s
  induction s with
  | nil => intro post h; rfl
  | cons b tail ih =>
    intro post h
    rcases b with _ | b
    · exact absurd (List.mem_cons_self 0 tail) h
    · show (readStr (tail ++ 0 :: post)).map _ = _
      rw [ih post (fun hc => h (List.mem_cons_of_mem _ hc))]
      rfl

theorem decodeStr_of_inv {blob : List Nat} {s : Str0} {off : Nat}
    (h : ∃ pre post, blob = pre ++ encStr s ++ post ∧ pre.length = off)
    (hnul : 0 ∉ s) : decodeStr blob off = some s := by
  obtain ⟨pre, post, hb, hl⟩ := h
  unfold decodeStr
  rw [hb, ← hl, List.append_assoc, List.drop_left]
  have h2 : encStr s ++ post = s ++ 0 :: post := by
    simp [encStr]
  rw [h2]
  exact readStr_rt s post hnul

theorem decodeStrings_rt {m : List (Str0 × Nat)} {blob : List Nat}
    (hinv : ∀ q ∈ m, ∃ pre post, blob = pre ++ encStr q.1 ++ post ∧ pre.length = q.2) :
    ∀ {table : List Str0} {offs : List Nat},
      encodedOffsets m table = some offs → (∀ s ∈ table, 0 ∉ s) →
      decodeStrings blob offs = some table := by
  intro table
  induction table with
  | nil =>
    intro offs h hnul
    have h2 : (some [] : Option (List Nat)) = some offs := h
    simp only [Option.some.injEq] at h2
    rw [← h2]
    rfl
  | cons s rest ih =>
    intro offs h hnul
    unfold encodedOffsets at h
    rw [Option.bind_eq_some] at h
    obtain ⟨off, hoff, h⟩ := h
    rw [Option.map_eq_some'] at h
    obtain ⟨os, hos, hoseq⟩ := h
    subst hoseq
    show (decodeStr blob off).bind _ = _
    rw [decodeStr_of_inv (hinv (s, off) (alook_mem hoff))
        (hnul s (List.mem_cons_self s rest))]
    show (decodeStrings blob os).map _ = _
    rw [ih hos (fun t ht => hnul t (List.mem_cons_of_mem s ht))]
    rfl

theorem decodeDefs_rt :
    ∀ (defs : List Definition) (pre : List Nat) (allB : List Nat),
      allB = pre ++ (encodeDefs defs pre.length).1 →
      decodeDefs allB (encodeDefs defs pre.length).2 = some defs := by
  intro defs
  induction defs with
  | nil => intro pre allB h; rfl
  | cons d rest ih =>
    intro pre allB h
    show (decAny (AnyDefinition.tag d.value) (allB.drop pre.length)).bind _ = _
    have hdrop : allB.drop pre.length =
        encAny d.value ++ (encodeDefs rest (pre.length + (encAny d.value).length)).1 := by
      rw [h]
      show (pre ++ (encAny d.value ++ _)).drop pre.length = _
      rw [List.drop_left]
    rw [hdrop, decAny_rt]
    show (decodeDefs allB (encodeDefs rest (pre.length + (encAny d.value).length)).2).map _ = _
    have hlen : pre.length + (encAny d.value).length = (pre ++ encAny d.value).length := by
      simp
    rw [hlen] at hdrop ⊢
    have hside : allB = (pre ++ encAny d.value) ++
        (encodeDefs rest (pre ++ encAny d.value).length).1 := by
      rw [h]
      show pre ++ (encodeDefs (d :: rest) pre.length).1 = _
      have hunf : (encodeDefs (d :: rest) pre.length).1 =
          encAny d.value ++ (encodeDefs rest (pre.length + (encAny d.value).length)).1 := rfl
      rw [hunf, hlen, List.append_assoc]
    rw [ih (pre ++ encAny d.value) allB hside]
    simp only [Option.map_some', Option.some.injEq, List.cons.injEq]

end Redscript

namespace Redscript

theorem decodeDefs_rt0 (defs : List Definition) :
    decodeDefs (encodeDefs defs 0).1 (encodeDefs defs 0).2 = some defs :=
  decodeDefs_rt defs [] (encodeDefs defs 0).1 (by simp)

/-- C1: encoding a decoded pool and decoding the result reproduces the
pool: same definition count and structurally equal definitions at every
index, strings, names, parents and bodies preserved. The hypotheses state
exactly the shape `ConstantPool::decode` guarantees: slot 0 holds the
default definition, the table strings are NUL-free (they were read from
NUL-terminated blob entries), and each table's reverse map is the one
rebuilt from its strings vector. -/
theorem c1_pool_roundtrip (pool : ConstantPool)
    (hd0 : pool.definitions.head? = some Definition.default)
    (hnul : ∀ s ∈ pool.names.strings ++ pool.tweakdbIds.strings ++
        pool.resources.strings ++ pool.strings.strings, (0 : Nat) ∉ s)
    (hmn : pool.names.mappings = buildMappings pool.names.strings)
    (hmt : pool.tweakdbIds.mappings = buildMappings pool.tweakdbIds.strings)
    (hmr : pool.resources.mappings = buildMappings pool.resources.strings)
    (hms : pool.strings.mappings = buildMappings pool.strings.strings) :
    ∃ (e : EncodedPool) (pool2 : ConstantPool), pool.encodeE = some e ∧
      ConstantPool.decodeE e = some pool2 ∧
      pool2.definitions.length = pool.definitions.length ∧
      (∀ k, pool2.definitions.get? k = pool.definitions.get? k) ∧
      pool2 = pool := by
  have hbase : BlobInv [] [] :=
    ⟨rfl, List.nodup_nil, fun q hq => absurd hq (List.not_mem_nil q)⟩
  obtain ⟨⟨hjoin, hnd, hoffs⟩, hext, htot⟩ :=
    foldl_dedup_inv (pool.names.strings ++ pool.tweakdbIds.strings ++
      pool.resources.strings ++ pool.strings.strings) [] [] hbase
  have hinv : ∀ q ∈ (buildBlob (pool.names.strings ++ pool.tweakdbIds.strings ++
      pool.resources.strings ++ pool.strings.strings)).1,
      ∃ pre post, (buildBlob (pool.names.strings ++ pool.tweakdbIds.strings ++
        pool.resources.strings ++ pool.strings.strings)).2 =
        pre ++ encStr q.1 ++ post ∧ pre.length = q.2 := hoffs
  have htotB : ∀ s ∈ pool.names.strings ++ pool.tweakdbIds.strings ++
      pool.resources.strings ++ pool.strings.strings,
      ∃ off, alook (buildBlob (pool.names.strings ++ pool.tweakdbIds.strings ++
        pool.resources.strings ++ pool.strings.strings)).1 s = some off := htot
  obtain ⟨no, hno, hnol, hnoa⟩ := encodedOffsets_total (fun s hs => htotB s
    (List.mem_append_left _ (List.mem_append_left _ (List.mem_append_left _ hs))))
  obtain ⟨tw, htw, htwl, htwa⟩ := encodedOffsets_total (fun s hs => htotB s
    (List.mem_append_left _ (List.mem_append_left _ (List.mem_append_right _ hs))))
  obtain ⟨ro, hro, hrol, hroa⟩ := encodedOffsets_total (fun s hs => htotB s
    (List.mem_append_left _ (List.mem_append_right _ hs)))
  obtain ⟨so, hso, hsol, hsoa⟩ := encodedOffsets_total (fun s hs => htotB s
    (List.mem_append_right _ hs))
  obtain ⟨tail, htail⟩ : ∃ t, pool.definitions = Definition.default :: t := by
    rcases hdef : pool.definitions with _ | ⟨h0, t⟩
    · rw [hdef] at hd0
      exact Option.noConfusion hd0
    · rw [hdef] at hd0
      have h2 : (some h0 : Option Definition) = some Definition.default := hd0
      simp only [Option.some.injEq] at h2
      exact ⟨t, by rw [h2]⟩
  refine ⟨⟨(buildBlob (pool.names.strings ++ pool.tweakdbIds.strings ++
      pool.resources.strings ++ pool.strings.strings)).2, no, tw, ro, so,
      DefHeader.default :: (encodeDefs (pool.definitions.drop 1) 0).2,
      (encodeDefs (pool.definitions.drop 1) 0).1⟩, pool, ?_, ?_, rfl,
      fun k => rfl, rfl⟩
  · unfold ConstantPool.encodeE
    rw [hno, Option.some_bind, htw, Option.some_bind, hro, Option.some_bind,
      hso, Option.some_bind]
  · have hdn : StrTable.decodeFrom (buildBlob (pool.names.strings ++
        pool.tweakdbIds.strings ++ pool.resources.strings ++
        pool.strings.strings)).2 no = some pool.names := by
      unfold StrTable.decodeFrom
      rw [decodeStrings_rt hinv hno (fun s hs => hnul s
        (List.mem_append_left _ (List.mem_append_left _ (List.mem_append_left _ hs))))]
      rw [Option.map_some', ← hmn]
    have hdt : StrTable.decodeFrom (buildBlob (pool.names.strings ++
        pool.tweakdbIds.strings ++ pool.resources.strings ++
        pool.strings.strings)).2 tw = some pool.tweakdbIds := by
      unfold StrTable.decodeFrom
      rw [decodeStrings_rt hinv htw (fun s hs => hnul s
        (List.mem_append_left _ (List.mem_append_left _ (List.mem_append_right _ hs))))]
      rw [Option.map_some', ← hmt]
    have hdr : StrTable.decodeFrom (buildBlob (pool.names.strings ++
        pool.tweakdbIds.strings ++ pool.resources.strings ++
        pool.strings.strings)).2 ro = some pool.resources := by
      unfold StrTable.decodeFrom
      rw [decodeStrings_rt hinv hro (fun s hs => hnul s
        (List.mem_append_left _ (List.mem_append_right _ hs)))]
      rw [Option.map_some', ← hmr]
    have hds : StrTable.decodeFrom (buildBlob (pool.names.strings ++
        pool.tweakdbIds.strings ++ pool.resources.strings ++
        pool.strings.strings)).2 so = some pool.strings := by
      unfold StrTable.decodeFrom
      rw [decodeStrings_rt hinv hso (fun s hs => hnul s
        (List.mem_append_right _ hs))]
      rw [Option.map_some', ← hms]
    unfold ConstantPool.decodeE
    show (StrTable.decodeFrom (buildBlob (pool.names.strings ++
        pool.tweakdbIds.strings ++ pool.resources.strings ++
        pool.strings.strings)).2 no).bind _ = some pool
    rw [hdn, Option.some_bind]
    show (StrTable.decodeFrom (buildBlob (pool.names.strings ++
        pool.tweakdbIds.strings ++ pool.resources.strings ++
        pool.strings.strings)).2 tw).bind _ = some pool
    rw [hdt, Option.some_bind]
    show (StrTable.decodeFrom (buildBlob (pool.names.strings ++
        pool.tweakdbIds.strings ++ pool.resources.strings ++
        pool.strings.strings)).2 ro).bind _ = some pool
    rw [hdr, Option.some_bind]
    show (StrTable.decodeFrom (buildBlob (pool.names.strings ++
        pool.tweakdbIds.strings ++ pool.resources.strings ++
        pool.strings.strings)).2 so).bind _ = some pool
    rw [hds, Option.some_bind]
    show (decodeDefs (encodeDefs (pool.definitions.drop 1) 0).1
        (encodeDefs (pool.definitions.drop 1) 0).2).map _ = some pool
    rw [decodeDefs_rt0]
    have hfix : Definition.default :: pool.definitions.drop 1 = pool.definitions := by
      rw [htail]
      rfl
    rw [Option.map_some', hfix]

end Redscript

namespace Redscript

/-- A decoded-shaped pool for the C1 witness: the name `[97]` also lives
in the tweakdb table (exercising cross-table dedup), and the definitions
cover a function, a parameter and a negative enum value. -/
def c1pool : ConstantPool :=
  { names := ⟨[noneStr, [97]], buildMappings [noneStr, [97]]⟩,
    tweakdbIds := ⟨[[97]], buildMappings [[97]]⟩,
    resources := ⟨[], buildMappings []⟩,
    strings := ⟨[[98]], buildMappings [[98]]⟩,
    definitions := [Definition.default,
      ⟨1, 0, 0, 0, 0, .func { sampleFunc with parameters := [2] }⟩,
      ⟨1, 1, 0, 0, 0, .param ⟨0, 0⟩⟩,
      ⟨0, 0, 0, 0, 0, .enumValue (-2)⟩] }

/-- The C1 theorem at the concrete pool: every decoded-shape hypothesis
holds and the encode/decode round trip reproduces the pool. -/
theorem c1_pool_roundtrip_witness :
    ∃ (e : EncodedPool) (pool2 : ConstantPool), c1pool.encodeE = some e ∧
      ConstantPool.decodeE e = some pool2 ∧
      pool2.definitions.length = c1pool.definitions.length ∧
      (∀ k, pool2.definitions.get? k = c1pool.definitions.get? k) ∧
      pool2 = c1pool :=
  c1_pool_roundtrip c1pool (by decide) (by decide) (by rfl) (by rfl) (by rfl)
    (by rfl)

end Redscript
